import Mathlib

/-!
Verification development for the CLIBuJo core (parser, path context
resolution, ref generation, store and indexer), shallowly embedded from
`src/clibujo/core/parser.py`, `src/clibujo/core/models.py`,
`src/clibujo/core/indexer.py`, `src/clibujo/core/database.py` and
`src/clibujo/utils/files.py`.

Strings are modelled as lists of characters (`Str`).  The cryptographic
hashes (`hashlib.sha256`) used for file hashing and ref generation are
abstracted as function parameters; every composition of their inputs
(the `"{src}:{content}:{date}"` data string, the `"{date}:{line}"`
retry key) is embedded explicitly from the source.
-/

set_option autoImplicit false

namespace Clibujo

/-- Strings as lists of characters. -/
abbrev Str := List Char

/-- Convenience conversion for writing concrete strings. -/
def str (s : String) : Str := s.data

/-- Whitespace as recognised by Python `str.strip` / regex `\s` on str
patterns: the characters for which `str.isspace()` holds — the ASCII
whitespace 0x09-0x0d and 0x20, the C1 controls 0x1c-0x1f, NEL 0x85, NBSP
0xa0, Ogham space 0x1680, the Unicode spaces 0x2000-0x200a, the line and
paragraph separators 0x2028/0x2029, 0x202f, 0x205f and the ideographic
space 0x3000. -/
def isWs (c : Char) : Bool :=
  (0x09 ≤ c.val && c.val ≤ 0x0d) || c == ' '
  || (0x1c ≤ c.val && c.val ≤ 0x1f) || c.val == 0x85 || c.val == 0xa0
  || c.val == 0x1680 || (0x2000 ≤ c.val && c.val ≤ 0x200a)
  || c.val == 0x2028 || c.val == 0x2029 || c.val == 0x202f
  || c.val == 0x205f || c.val == 0x3000

/-- Python `str.lstrip()` restricted to whitespace. -/
def trimLeft (l : Str) : Str := l.dropWhile isWs

/-- Python `str.rstrip()` restricted to whitespace. -/
def trimRight (l : Str) : Str := (l.reverse.dropWhile isWs).reverse

/-- Python `str.strip()`. -/
def strip (l : Str) : Str := trimRight (trimLeft l)

/-- EntryType enum from `models.py`. -/
inductive EntryType
  | task
  | event
  | note
deriving DecidableEq, Repr

/-- TaskStatus enum from `models.py` (`open` renamed `open_`, a Lean keyword). -/
inductive TaskStatus
  | open_
  | complete
  | migrated
  | scheduled
  | cancelled
deriving DecidableEq, Repr

/-- Signifier enum from `models.py`. -/
inductive Signifier
  | priority
  | inspiration
  | explore
  | waiting
  | delegated
deriving DecidableEq, Repr

/-- STATUS_MAP from `parser.py`. -/
def STATUS_MAP : List (Char × TaskStatus) :=
  [(' ', .open_), ('x', .complete), ('>', .migrated), ('<', .scheduled), ('~', .cancelled)]

/-- STATUS_CHAR_MAP from `parser.py` (reverse of STATUS_MAP). -/
def statusChar : TaskStatus → Char
  | .open_ => ' '
  | .complete => 'x'
  | .migrated => '>'
  | .scheduled => '<'
  | .cancelled => '~'

def statusOfChar (c : Char) : Option TaskStatus := STATUS_MAP.lookup c

/-- A signifier configuration: the `signifiers: dict[str, str]` char-to-name map. -/
abbrev SigCfg := List (Char × String)

/-- DEFAULT_SIGNIFIERS from `parser.py` (char to Signifier enum). -/
def DEFAULT_SIGNIFIERS : List (Char × Signifier) :=
  [('*', .priority), ('!', .inspiration), ('?', .explore), ('@', .waiting), ('#', .delegated)]

/-- The Python `Signifier(name)` enum constructor (raises, i.e. `none`, on bad names). -/
def signifierOfName (name : String) : Option Signifier :=
  if name = "priority" then some .priority
  else if name = "inspiration" then some .inspiration
  else if name = "explore" then some .explore
  else if name = "waiting" then some .waiting
  else if name = "delegated" then some .delegated
  else none

/-- get_signifier_from_char from `parser.py`: a truthy configured name is converted
via the enum constructor (invalid names give `none`); otherwise fall back to
DEFAULT_SIGNIFIERS. -/
def getSignifierFromChar (c : Char) (sigs : SigCfg) : Option Signifier :=
  match sigs.lookup c with
  | some name => if name = "" then DEFAULT_SIGNIFIERS.lookup c else signifierOfName name
  | none => DEFAULT_SIGNIFIERS.lookup c

/-- The default value of parse_entry's `signifiers` parameter. -/
def parseDefaultSigs : SigCfg := [('*', "priority"), ('!', "inspiration"), ('?', "explore")]

/-- The full five-character configuration matching DEFAULT_SIGNIFIERS
(the config extension documented in `config.py`). -/
def defaultSignifiersCfg : SigCfg :=
  [('*', "priority"), ('!', "inspiration"), ('?', "explore"), ('@', "waiting"), ('#', "delegated")]

/-- First index of a character in a string. -/
def firstIdxOf (a : Char) : Str → Option Nat
  | [] => none
  | c :: rest => if c = a then some 0 else (firstIdxOf a rest).map (· + 1)

/-- The maximal run of non-whitespace characters at the end of the
right-trimmed string (the last "word"). -/
def lastWord (l : Str) : Str :=
  ((trimRight l).reverse.takeWhile (fun c => !(isWs c))).reverse

/-- Embedding of `re.search(r"\s*<arrow>(\S+)\s*$", line)` followed by
`line[:m.start()].strip()` / `m.group(1)`, as used for
MIGRATION_TO_PATTERN and MIGRATION_FROM_PATTERN in parse_entry.

The regex matches exactly when the last word of the line contains the
arrow at an index `i` with a non-empty remainder after it; the leftmost
such match starts at the first arrow of the last word.  The captured
token is the part of the last word after the arrow; the retained text
is everything before the arrow, stripped. -/
def splitMig (arrow : Char) (line : Str) : Option (Str × Str) :=
  let t := trimRight line
  let w := lastWord line
  match firstIdxOf arrow w with
  | some i =>
      if i + 1 < w.length then
        some (strip (t.take (t.length - w.length + i)), w.drop (i + 1))
      else none
  | none => none

/-- Embedding of `TASK_PATTERN = ^\[([ x><~])\]\s+(.+)` applied with `.match`,
returning the status character and the stripped content group.
(`group(2).strip()` is applied by the caller in parse_entry; we fold it in
here.)  `.` does not match a newline, so the content group stops at the
first newline.  Callers always pass text with no trailing whitespace, so
the regex backtracking corner where `\s+` yields whitespace to `(.+)` is
unreachable. -/
def matchTask (l : Str) : Option (Char × Str) :=
  match l with
  | '[' :: c :: ']' :: rest =>
    if (statusOfChar c).isSome then
      match rest with
      | c2 :: _ =>
        if isWs c2 then
          let body := (rest.dropWhile isWs).takeWhile (fun ch => ch != '\n')
          if body.isEmpty then none else some (c, strip body)
        else none
      | [] => none
    else none
  | _ => none

/-- Embedding of `EVENT_PATTERN = ^○\s*(.+)` (note: zero or more whitespace
characters after the marker). -/
def matchEvent (l : Str) : Option Str :=
  match l with
  | c0 :: rest =>
    if c0 = '○' then
      let body := (rest.dropWhile isWs).takeWhile (fun ch => ch != '\n')
      if body.isEmpty then none else some (strip body)
    else none
  | [] => none

/-- Embedding of `NOTE_PATTERN = ^-\s+(.+)`. -/
def matchNote (l : Str) : Option Str :=
  match l with
  | '-' :: rest =>
    match rest with
    | c2 :: _ =>
      if isWs c2 then
        let body := (rest.dropWhile isWs).takeWhile (fun ch => ch != '\n')
        if body.isEmpty then none else some (strip body)
      else none
    | [] => none
  | _ => none

/-- Entry dataclass from `models.py` (the unused-by-parsing `entry_ref`
field is omitted; it is represented on the stored record instead). -/
structure Entry where
  entry_type : EntryType
  content : Str
  raw_line : Str
  line_number : Nat := 0
  status : Option TaskStatus := none
  signifier : Option Signifier := none
  migrated_to : Option Str := none
  migrated_from : Option Str := none
deriving DecidableEq, Repr

/-- The signifier-consumption step of parse_entry: regex
`^([<configured chars>])\s+`; on a match the matched character is looked up
and the character plus the whole whitespace run is consumed. -/
def sigStage (sigs : SigCfg) (l : Str) : Option Signifier × Str :=
  match l with
  | c :: c2 :: rest =>
    if (sigs.any fun p => p.1 == c) && isWs c2 then
      (getSignifierFromChar c sigs, trimLeft (c2 :: rest))
    else (none, l)
  | _ => (none, l)

/-- The migration-hint extraction step of parse_entry: first the
`→<token>` suffix is stripped, then (from the remainder) the `←<token>`
suffix. -/
def migStage (l : Str) : (Option Str × Option Str) × Str :=
  let s1 := match splitMig '→' l with
    | some (rest, tok) => (some tok, rest)
    | none => ((none : Option Str), l)
  let s2 := match splitMig '←' s1.2 with
    | some (rest, tok) => (some tok, rest)
    | none => ((none : Option Str), s1.2)
  ((s1.1, s2.1), s2.2)

/-- The type-dispatch step of parse_entry.  Note that the Python code only
passes the migration hints to the task constructor; events and notes are
built with `migrated_to = migrated_from = None` even when hints were
stripped from the line. -/
def dispatchStage (raw : Str) (lineNumber : Nat) (sg : Option Signifier)
    (mt mf : Option Str) (l : Str) : Option Entry :=
  match matchTask l with
  | some (c, content) =>
      some { entry_type := .task, content := content, raw_line := raw,
             line_number := lineNumber, status := some ((statusOfChar c).getD .open_),
             signifier := sg, migrated_to := mt, migrated_from := mf }
  | none =>
  match matchEvent l with
  | some content =>
      some { entry_type := .event, content := content, raw_line := raw,
             line_number := lineNumber, signifier := sg }
  | none =>
  match matchNote l with
  | some content =>
      some { entry_type := .note, content := content, raw_line := raw,
             line_number := lineNumber, signifier := sg }
  | none => none

/-- parse_entry from `parser.py`. -/
def parseEntry (sigs : SigCfg) (line : Str) (lineNumber : Nat) : Option Entry :=
  let l := strip line
  if l.isEmpty then none
  else if l.head? == some '#' then none
  else
    let s := sigStage sigs l
    let m := migStage s.2
    dispatchStage line lineNumber s.1 m.1.1 m.1.2 m.2

/-- The signifier character table used by Entry.to_markdown in `models.py`. -/
def sigChar : Signifier → Char
  | .priority => '*'
  | .inspiration => '!'
  | .explore => '?'
  | .waiting => '@'
  | .delegated => '#'

/-- The status marker table used by Entry.to_markdown (`.get(self.status, "[ ]")`:
a task with no status serialises as an open task). -/
def statusMarker : Option TaskStatus → Str
  | some .open_ => ['[', ' ', ']']
  | some .complete => ['[', 'x', ']']
  | some .migrated => ['[', '>', ']']
  | some .scheduled => ['[', '<', ']']
  | some .cancelled => ['[', '~', ']']
  | none => ['[', ' ', ']']

/-- Python `" ".join(parts)`. -/
def joinSp : List Str → Str
  | [] => []
  | [p] => p
  | p :: ps => p ++ ' ' :: joinSp ps

/-- Entry.to_markdown from `models.py`.  Python truthiness: a `None` or
empty migration hint is not emitted. -/
def Entry.toMarkdown (e : Entry) : Str :=
  joinSp <|
    (match e.signifier with
      | some sg => [[sigChar sg]]
      | none => [])
    ++ [match e.entry_type with
        | .task => statusMarker e.status
        | .event => ['○']
        | .note => ['-']]
    ++ [e.content]
    ++ (match e.migrated_to with
        | some t => if t.isEmpty then [] else ['→' :: t]
        | none => [])
    ++ (match e.migrated_from with
        | some t => if t.isEmpty then [] else ['←' :: t]
        | none => [])

/-- Entry equality modulo `raw_line` and `line_number`. -/
def Entry.eqMod (a b : Entry) : Bool :=
  a.entry_type == b.entry_type && a.content == b.content && a.status == b.status &&
  a.signifier == b.signifier && a.migrated_to == b.migrated_to &&
  a.migrated_from == b.migrated_from

/-- The round-trip property of claim C1 for one entry: parsing the line
produced by to_markdown yields an entry equal to the original modulo
`raw_line`/`line_number`. -/
def parsesBackTo (sigs : SigCfg) (e : Entry) : Bool :=
  match parseEntry sigs e.toMarkdown 0 with
  | some e2 => e2.eqMod e
  | none => false

/-- Python `str.splitlines` restricted to `\n` terminators (journal files are
written with `\n`); a trailing newline does not produce a trailing empty
line. -/
def splitLinesGo (cur : Str) : Str → List Str
  | [] => [cur.reverse]
  | c :: rest =>
    if c = '\n' then
      match rest with
      | [] => [cur.reverse]
      | _ => cur.reverse :: splitLinesGo [] rest
    else splitLinesGo (c :: cur) rest

def splitLines (s : Str) : List Str :=
  match s with
  | [] => []
  | _ => splitLinesGo [] s

/-- The loop of parse_file: lines numbered from 1, unparseable lines skipped. -/
def parseLinesFrom (sigs : SigCfg) (n : Nat) : List Str → List Entry
  | [] => []
  | line :: rest =>
    match parseEntry sigs line n with
    | some e => e :: parseLinesFrom sigs (n + 1) rest
    | none => parseLinesFrom sigs (n + 1) rest

/-- parse_file from `parser.py`, on the file's content (existence is
handled by the indexer model). -/
def parseFileContent (sigs : SigCfg) (content : Str) : List Entry :=
  parseLinesFrom sigs 1 (splitLines content)

/-! Path context resolution (`determine_context` and the file patterns). -/

/-- FileType enum from `models.py`. -/
inductive FileType
  | daily
  | monthly
  | future
  | collection
  | index
deriving DecidableEq, Repr

/-- A valid Python `datetime.date` value. -/
structure CalDate where
  year : Nat
  month : Nat
  day : Nat
deriving DecidableEq, Repr

/-- Day count per month, as in the Gregorian calendar used by `datetime`. -/
def daysInMonth (y m : Nat) : Nat :=
  if m = 2 then (if (y % 4 = 0 ∧ y % 100 ≠ 0) ∨ y % 400 = 0 then 29 else 28)
  else if m = 4 ∨ m = 6 ∨ m = 9 ∨ m = 11 then 30
  else 31

/-- The Python `date(year, month, day)` constructor: `.error` models the
ValueError raised for out-of-range components. -/
def mkDate (y m d : Nat) : Except Unit CalDate :=
  if 1 ≤ y ∧ y ≤ 9999 ∧ 1 ≤ m ∧ m ≤ 12 ∧ 1 ≤ d ∧ d ≤ daysInMonth y m then
    .ok ⟨y, m, d⟩
  else .error ()

/-- Context dataclass from `models.py`. -/
structure Context where
  file_type : FileType
  file_path : Str
  date : Option CalDate := none
  month : Option Str := none
  collection : Option Str := none
  collection_type : Option Str := none
deriving DecidableEq, Repr

/-- Decimal digits of a natural number, zero-padded to a width
(Python `f"{n:0<w>d}"`). -/
def padNum (w n : Nat) : Str :=
  let d := Nat.toDigits 10 n
  List.replicate (w - d.length) '0' ++ d

/-- Python `f"{year:04d}-{month:02d}"`. -/
def monthStr (y m : Nat) : Str := padNum 4 y ++ '-' :: padNum 2 m

/-- Python `str(date)` (ISO format). -/
def calDateStr (d : CalDate) : Str :=
  padNum 4 d.year ++ '-' :: (padNum 2 d.month ++ '-' :: padNum 2 d.day)

/-- List prefix test. -/
def hasPre : Str → Str → Bool
  | [], _ => true
  | _, [] => false
  | a :: as, b :: bs => a == b && hasPre as bs

/-- Python `Path.name` on a POSIX relative path: the part after the last slash. -/
def pathName (l : Str) : Str := (l.reverse.takeWhile (fun c => c != '/')).reverse

/-- Python `Path.parts` on a normalised POSIX relative path. -/
def pathParts (l : Str) : List Str := (l.splitOn '/').filter (fun p => !p.isEmpty)

def lastIdxOf (a : Char) (l : Str) : Option Nat :=
  (firstIdxOf a l.reverse).map (fun i => l.length - 1 - i)

/-- Python `Path.stem`: the name with its (nonempty, non-initial) final
suffix removed. -/
def pathStem (rel : Str) : Str :=
  let n := pathName rel
  match lastIdxOf '.' n with
  | some i => if 0 < i ∧ i + 1 < n.length then n.take i else n
  | none => n

def digitsVal (l : Str) : Nat := l.foldl (fun n c => n * 10 + (c.toNat - '0'.toNat)) 0

/-- Embedding of `DAILY_FILE_PATTERN = (\d{4})-(\d{2})-(\d{2})\.md$` under
`re.search` on the file name: the pattern has fixed length 13 and is
anchored at the end, so it matches exactly when the last 13 characters
have the dddd-dd-dd.md shape. -/
def dailyMatch (name : Str) : Option (Nat × Nat × Nat) :=
  if 13 ≤ name.length then
    match name.drop (name.length - 13) with
    | [a, b, c, d, h1, e, f, h2, g, k, p1, p2, p3] =>
      if ([a, b, c, d, e, f, g, k].all Char.isDigit) && h1 == '-' && h2 == '-'
          && p1 == '.' && p2 == 'm' && p3 == 'd' then
        some (digitsVal [a, b, c, d], digitsVal [e, f], digitsVal [g, k])
      else none
    | _ => none
  else none

/-- Embedding of `MONTHLY_FILE_PATTERN = (\d{4})-(\d{2})\.md$` (fixed
length 10, anchored at the end). -/
def monthlyMatch (name : Str) : Option (Nat × Nat) :=
  if 10 ≤ name.length then
    match name.drop (name.length - 10) with
    | [a, b, c, d, h1, e, f, p1, p2, p3] =>
      if ([a, b, c, d, e, f].all Char.isDigit) && h1 == '-'
          && p1 == '.' && p2 == 'm' && p3 == 'd' then
        some (digitsVal [a, b, c, d], digitsVal [e, f])
      else none
    | _ => none
  else none

/-- determine_context from `parser.py`, on the path relative to the data
directory (`file_path.relative_to(data_dir)` is assumed to have
succeeded; `_get_relative_path` is the identity on such paths).
`.error` models the uncaught ValueError raised by `date(year, month, day)`
for a daily file name whose components are not a valid calendar date;
every other branch returns a Context. -/
def determineContextE (rel : Str) : Except Unit Context :=
  let fname := pathName rel
  match (if hasPre (str "daily/") rel || hasPre (str "daily\\") rel
         then dailyMatch fname else none) with
  | some (y, m, d) =>
    (mkDate y m d).map fun dt =>
      { file_type := .daily, file_path := rel, date := some dt, month := some (monthStr y m) }
  | none =>
  match (if hasPre (str "months/") rel || hasPre (str "months\\") rel
         then monthlyMatch fname else none) with
  | some (y, m) => .ok { file_type := .monthly, file_path := rel, month := some (monthStr y m) }
  | none =>
  if fname = str "future.md" then .ok { file_type := .future, file_path := rel }
  else if fname = str "index.md" then .ok { file_type := .index, file_path := rel }
  else if hasPre (str "collections/") rel || hasPre (str "collections\\") rel then
    let parts := pathParts rel
    if 3 ≤ parts.length then
      .ok { file_type := .collection, file_path := rel,
            collection := some (((parts.get? 1).getD []) ++ '/' :: pathStem rel),
            collection_type := parts.get? 1 }
    else if 2 ≤ parts.length then
      .ok { file_type := .collection, file_path := rel, collection := some (pathStem rel) }
    else .ok { file_type := .collection, file_path := rel }
  else .ok { file_type := .collection, file_path := rel }

/-! The store (`database.py`) and the indexer (`indexer.py`).

The store state is the two tables the indexer mutates: `entries` and
`file_hashes`.  DB-generated provenance (row ids, timestamps) is not part of
the records the spec's claims compare.  Each indexer operation is modelled
as the list of primitive committed statements (`Op`) that the Python code
issues, in order: `Database.cursor` commits after every single statement, so
a failure between two statements leaves exactly a prefix of the list
applied.  Records are produced against the evolving store because
`_index_file` consults `get_entry_by_ref` while inserting.

The `sha256` hashes are abstracted: `g` is the entry-ref hash
(`sha256(data).hexdigest()[:6]`), `h` is the file-content hash
(`hash_file`); the data strings fed to them are embedded from the source.
`insert_entry` is modelled as an unconditional append: the UNIQUE
constraint on `entry_ref` is visible to the indexer only through
`get_entry_by_ref`, which the model consults exactly where the source
does. -/

/-- An entry row, i.e. the arguments of `Database.insert_entry`. -/
structure Rec where
  entry_ref : Str
  source_file : Str
  line_number : Nat
  raw_line : Str
  entry_type : EntryType
  status : Option TaskStatus
  signifier : Option Signifier
  content : Str
  entry_date : Option CalDate
  collection : Option Str
  month : Option Str
  migrated_to : Option Str
  migrated_from : Option Str
deriving DecidableEq, Repr

/-- The two tables of the cache the indexer mutates. -/
structure Store where
  entries : List Rec
  hashes : List (Str × Str)
deriving DecidableEq, Repr

/-- One committed SQL statement issued by the indexer through the store. -/
inductive Op
  | clearAll
  | clearFile (p : Str)
  | insert (r : Rec)
  | setHash (p : Str) (hsh : Str)
  | deleteHash (p : Str)
deriving DecidableEq, Repr

/-- The effect of one committed statement (`clear_entries`,
`clear_file_entries`, `insert_entry`, `set_file_hash` with INSERT OR
REPLACE, `delete_file_hash`). -/
def applyOp (s : Store) : Op → Store
  | .clearAll => { entries := [], hashes := [] }
  | .clearFile p => { s with entries := s.entries.filter (fun r => r.source_file != p) }
  | .insert r => { s with entries := s.entries ++ [r] }
  | .setHash p hsh => { s with hashes := s.hashes.filter (fun q => q.1 != p) ++ [(p, hsh)] }
  | .deleteHash p => { s with hashes := s.hashes.filter (fun q => q.1 != p) }

def runOps (s : Store) (ops : List Op) : Store := ops.foldl applyOp s

/-- `Database.get_entry_by_ref`. -/
def getEntryByRef (s : Store) (ref : Str) : Option Rec :=
  s.entries.find? (fun r => r.entry_ref == ref)

/-- `Database.get_file_hash`. -/
def getFileHash (s : Store) (p : Str) : Option Str :=
  (s.hashes.find? (fun q => q.1 == p)).map (fun q => q.2)

/-- `Database.get_all_indexed_files`. -/
def indexedFiles (s : Store) : List Str := s.hashes.map (fun q => q.1)

/-- The records of one source file, in insertion order
(`Database.get_entries_by_file` up to its ORDER BY). -/
def entriesFor (p : Str) (s : Store) : List Rec :=
  s.entries.filter (fun r => r.source_file == p)

/-- An abstract `sha256`-based hash (the truncation to 6 hex characters is
part of the abstracted function). -/
abbrev Hasher := Str → Str

/-- generate_entry_ref from `parser.py`: hash of
`f"{source_file}:{content}:{entry_date or ''}"` (a `None` date and an empty
date string produce the same data, so the date is taken as a plain string). -/
def generateEntryRef (g : Hasher) (sourceFile content entryDate : Str) : Str :=
  g (sourceFile ++ ':' :: content ++ ':' :: entryDate)

def natStr (n : Nat) : Str := str (toString n)

/-- The entry-date string `str(context.date) if context.date else ""` used
by `_index_file`. -/
def ctxDateStr (ctx : Context) : Str :=
  match ctx.date with
  | some d => calDateStr d
  | none => []

/-- The ref-selection step of `_index_file`: generate, and when the ref is
already present in the store, regenerate once with the line number
appended to the context key (`f"{entry_date_str}:{entry.line_number}"`).
No further check is made on the regenerated ref. -/
def chooseRef (g : Hasher) (s : Store) (rel : Str) (e : Entry) (dateStr : Str) : Str :=
  let r1 := generateEntryRef g rel e.content dateStr
  if (getEntryByRef s r1).isSome then
    generateEntryRef g rel e.content (dateStr ++ ':' :: natStr e.line_number)
  else r1

/-- The record `_index_file` inserts for one parsed entry. -/
def mkRec (g : Hasher) (s : Store) (rel : Str) (ctx : Context) (e : Entry) : Rec :=
  { entry_ref := chooseRef g s rel e (ctxDateStr ctx)
    source_file := rel
    line_number := e.line_number
    raw_line := e.raw_line
    entry_type := e.entry_type
    status := e.status
    signifier := e.signifier
    content := e.content
    entry_date := ctx.date
    collection := ctx.collection
    month := ctx.month
    migrated_to := e.migrated_to
    migrated_from := e.migrated_from }

/-- The records inserted by `_index_file`'s loop, each chosen against the
store as it stands after the previous inserts. -/
def recsList (g : Hasher) (rel : Str) (ctx : Context) (s : Store) : List Entry → List Rec
  | [] => []
  | e :: es =>
    let r := mkRec g s rel ctx e
    r :: recsList g rel ctx (applyOp s (.insert r)) es

/-- The operation trace of `Indexer._index_file` on a file that exists
with the given content, starting from store `s`.  The Bool is false when
the call raises (context resolution fails) before issuing any statement. -/
def indexFileTr (g h : Hasher) (sigs : SigCfg) (s : Store) (rel content : Str) :
    List Op × Bool :=
  match determineContextE rel with
  | .error _ => ([], false)
  | .ok ctx =>
    ((recsList g rel ctx s (parseFileContent sigs content)).map Op.insert
      ++ [Op.setHash rel (h content)], true)

/-- The per-file loop of `Indexer.full_reindex` (after `clear_entries`):
trace, completion flag, and the file count it returns on completion. -/
def fullFilesTr (g h : Hasher) (sigs : SigCfg) (s : Store) :
    List (Str × Str) → List Op × Bool × Nat
  | [] => ([], true, 0)
  | (p, c) :: fs =>
    let t := indexFileTr g h sigs s p c
    if t.2 then
      let r := fullFilesTr g h sigs (runOps s t.1) fs
      (t.1 ++ r.1, r.2.1, r.2.2 + 1)
    else (t.1, false, 0)

/-- `Indexer.full_reindex` as a trace: `clear_entries` (wiping both tables)
followed by indexing every markdown file under the root, in walk order. -/
def fullReindexTr (g h : Hasher) (sigs : SigCfg) (s : Store) (files : List (Str × Str)) :
    List Op × Bool × Nat :=
  let r := fullFilesTr g h sigs (applyOp s .clearAll) files
  (Op.clearAll :: r.1, r.2)

/-- `Indexer.full_reindex` run to completion: resulting store, completion
flag, returned count. -/
def fullReindex (g h : Hasher) (sigs : SigCfg) (files : List (Str × Str)) (s : Store) :
    Store × Bool × Nat :=
  let t := fullReindexTr g h sigs s files
  (runOps s t.1, t.2)

/-- The changed-file loop of `Indexer.incremental_reindex`: a file whose
current hash differs from the stored one is cleared, reindexed and its
hash set; others are untouched. -/
def incrFilesTr (g h : Hasher) (sigs : SigCfg) (s : Store) :
    List (Str × Str) → List Op × Bool × Nat
  | [] => ([], true, 0)
  | (p, c) :: fs =>
    let cur := h c
    if getFileHash s p ≠ some cur then
      let s1 := applyOp s (.clearFile p)
      let t := indexFileTr g h sigs s1 p c
      if t.2 then
        let s2 := applyOp (runOps s1 t.1) (.setHash p cur)
        let r := incrFilesTr g h sigs s2 fs
        (Op.clearFile p :: t.1 ++ Op.setHash p cur :: r.1, r.2.1, r.2.2 + 1)
      else (Op.clearFile p :: t.1, false, 0)
    else incrFilesTr g h sigs s fs

/-- The deleted-file loop of `Indexer.incremental_reindex`. -/
def deleteFilesTr : List Str → List Op
  | [] => []
  | p :: ps => Op.clearFile p :: Op.deleteHash p :: deleteFilesTr ps

/-- `Indexer.incremental_reindex` as a trace: the set of indexed paths is
read first; on-disk files are diffed by hash; previously indexed paths no
longer on disk are cleared and their hash records deleted.  (Python
iterates the deleted set in unspecified order; the model uses the stored
order.) -/
def incrementalReindexTr (g h : Hasher) (sigs : SigCfg) (s : Store)
    (files : List (Str × Str)) : List Op × Bool × Nat :=
  let indexed := indexedFiles s
  let r := incrFilesTr g h sigs s files
  if r.2.1 then
    let current := files.map (fun f => f.1)
    let deleted := indexed.filter (fun p => !(current.contains p))
    (r.1 ++ deleteFilesTr deleted, true, r.2.2 + deleted.length)
  else r

/-- `Indexer.incremental_reindex` run to completion. -/
def incrementalReindex (g h : Hasher) (sigs : SigCfg) (files : List (Str × Str))
    (s : Store) : Store × Bool × Nat :=
  let t := incrementalReindexTr g h sigs s files
  (runOps s t.1, t.2)

/-- `Indexer.reindex_file` as a trace.  `disk` is the file's content when it
exists on disk, `none` when it does not.  A missing file is cleared and its
hash record deleted; an existing file is cleared, indexed (which sets its
hash) and its hash set again by reindex_file itself. -/
def reindexFileTr (g h : Hasher) (sigs : SigCfg) (s : Store) (p : Str)
    (disk : Option Str) : List Op × Bool :=
  match disk with
  | some c =>
    let s1 := applyOp s (.clearFile p)
    let t := indexFileTr g h sigs s1 p c
    if t.2 then (Op.clearFile p :: t.1 ++ [Op.setHash p (h c)], true)
    else (Op.clearFile p :: t.1, false)
  | none => ([Op.clearFile p, Op.deleteHash p], true)

/-- `Indexer.reindex_file` run to completion. -/
def reindexFile (g h : Hasher) (sigs : SigCfg) (p : Str) (disk : Option Str)
    (s : Store) : Store × Bool :=
  let t := reindexFileTr g h sigs s p disk
  (runOps s t.1, t.2)

/-! Helper lemmas about whitespace trimming. -/

theorem dropWhile_eq_self_of_head {p : Char → Bool} {l : Str}
    (h : ∀ x, l.head? = some x → p x = false) : l.dropWhile p = l := by
  cases l with
  | nil => rfl
  | cons a t => simp [List.dropWhile_cons, h a rfl]

theorem head_eq_false_of_dropWhile_eq_self {p : Char → Bool} {l : Str}
    (h : l.dropWhile p = l) : ∀ x, l.head? = some x → p x = false := by
  intro x hx
  cases l with
  | nil => simp at hx
  | cons a t =>
    simp only [List.head?_cons, Option.some.injEq] at hx
    subst hx
    by_contra hp
    simp only [Bool.not_eq_false] at hp
    rw [List.dropWhile_cons, if_pos hp] at h
    have hle : ∀ (m : Str), (m.dropWhile p).length ≤ m.length := by
      intro m
      induction m with
      | nil => simp
      | cons b u ih =>
        rw [List.dropWhile_cons]
        by_cases hb : p b
        · simp only [if_pos hb]; exact Nat.le_succ_of_le ih
        · simp [if_neg hb]
    have := hle t
    have h2 : (t.dropWhile p).length = t.length + 1 := by rw [h]; simp
    omega

theorem trimLeft_eq_self {l : Str} (h : ∀ x, l.head? = some x → isWs x = false) :
    trimLeft l = l := dropWhile_eq_self_of_head h

theorem trimRight_eq_self {l : Str} (h : ∀ x, l.reverse.head? = some x → isWs x = false) :
    trimRight l = l := by
  rw [trimRight, dropWhile_eq_self_of_head h, List.reverse_reverse]

theorem strip_eq_self {l : Str} (h1 : ∀ x, l.head? = some x → isWs x = false)
    (h2 : ∀ x, l.reverse.head? = some x → isWs x = false) : strip l = l := by
  rw [strip, trimLeft_eq_self h1, trimRight_eq_self h2]

theorem head_of_trimLeft_self {l : Str} (h : trimLeft l = l) :
    ∀ x, l.head? = some x → isWs x = false :=
  head_eq_false_of_dropWhile_eq_self h

theorem revhead_of_trimRight_self {l : Str} (h : trimRight l = l) :
    ∀ x, l.reverse.head? = some x → isWs x = false := by
  intro x hx
  have h' : l.reverse.dropWhile isWs = l.reverse := by
    have := congrArg List.reverse h
    rwa [trimRight, List.reverse_reverse] at this
  exact head_eq_false_of_dropWhile_eq_self h' x hx

/-! Claim C10. -/

/-- C10: determine_context is not total over paths: the daily-log path
`daily/2024-13-40.md` matches the daily file-name shape, so the code
reaches `date(2024, 13, 40)`, which raises (modelled as `.error`): the
error branch is reachable at the public interface. -/
theorem determineContext_invalid_daily_raises :
    dailyMatch (pathName (str "daily/2024-13-40.md")) = some (2024, 13, 40) ∧
    mkDate 2024 13 40 = .error () ∧
    determineContextE (str "daily/2024-13-40.md") = .error () := by
  refine ⟨by decide, by rfl, by rfl⟩

/-! Claim C9 and the C1 counterexample. -/

theorem parseEntry_none_of_head_hash (sigs : SigCfg) (line : Str) (n : Nat)
    (hl : (strip line).head? = some '#') : parseEntry sigs line n = none := by
  cases hstrip : strip line with
  | nil => rw [hstrip] at hl; simp at hl
  | cons a t =>
    rw [hstrip] at hl
    simp only [List.head?_cons, Option.some.injEq] at hl
    subst hl
    simp [parseEntry, hstrip]

theorem joinSp_cons_head (x : Char) (p : Str) (ps : List Str) :
    (joinSp ((x :: p) :: ps)).head? = some x := by
  cases ps <;> rfl

theorem toMarkdown_head_delegated (e : Entry) (he : e.signifier = some .delegated) :
    e.toMarkdown.head? = some '#' := by
  unfold Entry.toMarkdown
  rw [he]
  exact joinSp_cons_head '#' [] _

theorem dropWhile_append_sing {p : Char → Bool} {x : Char} (hx : p x = false) (l : Str) :
    ∃ m : Str, (l ++ [x]).dropWhile p = m ++ [x] := by
  induction l with
  | nil => exact ⟨[], by simp [List.dropWhile_cons, hx]⟩
  | cons a t ih =>
    rw [List.cons_append, List.dropWhile_cons]
    by_cases ha : p a
    · simpa only [if_pos ha] using ih
    · exact ⟨a :: t, by simp [if_neg ha]⟩

theorem strip_head_of_head {x : Char} {l : Str} (hx : isWs x = false) :
    (strip (x :: l)).head? = some x := by
  have h1 : trimLeft (x :: l) = x :: l := by simp [trimLeft, List.dropWhile_cons, hx]
  rw [strip, h1, trimRight]
  obtain ⟨m, hm⟩ := dropWhile_append_sing hx l.reverse
  rw [List.reverse_cons, hm, List.reverse_append]
  simp

/-- C9: a line whose trimmed form starts with '#' yields no entry under any
signifier configuration — the header check precedes signifier consumption,
so this holds even when '#' is configured (it maps to `delegated` in
DEFAULT_SIGNIFIERS) — and consequently an Entry carrying the delegated
signifier serialises via to_markdown to a line beginning with '#' that
parse_entry maps back to no entry. -/
theorem header_check_precedes_delegated_signifier (sigs : SigCfg) (line : Str)
    (n m : Nat) (e : Entry) (hl : (strip line).head? = some '#')
    (he : e.signifier = some .delegated) :
    parseEntry sigs line n = none ∧
    e.toMarkdown.head? = some '#' ∧
    parseEntry defaultSignifiersCfg e.toMarkdown m = none := by
  refine ⟨parseEntry_none_of_head_hash sigs line n hl, toMarkdown_head_delegated e he, ?_⟩
  apply parseEntry_none_of_head_hash
  have hh := toMarkdown_head_delegated e he
  cases htm : e.toMarkdown with
  | nil => rw [htm] at hh; simp at hh
  | cons a t =>
    rw [htm] at hh
    simp only [List.head?_cons, Option.some.injEq] at hh
    subst hh
    exact strip_head_of_head (by decide)

/-- Witness for C9 at a concrete header line and a concrete delegated entry. -/
theorem header_check_witness :
    (strip (str "# Header")).head? = some '#' ∧
    parseEntry parseDefaultSigs (str "# Header") 1 = none ∧
    ({ entry_type := .note, content := str "ask Ann", raw_line := [],
       signifier := some .delegated } : Entry).toMarkdown.head? = some '#' := by
  have h := header_check_precedes_delegated_signifier parseDefaultSigs (str "# Header") 1 0
      { entry_type := .note, content := str "ask Ann", raw_line := [],
        signifier := some .delegated } (by decide) rfl
  exact ⟨by decide, h.1, h.2.1⟩

/-- C1 counterexample: the constructible entry (task, open, delegated
signifier, content "Buy milk", no migration hints) serialises to
"# [ ] Buy milk", which parse_entry — under the full default signifier
configuration including '#' — maps to no entry, so
`parse(to_markdown(entry)) == entry` fails for this combination. -/
theorem roundtrip_fails_for_delegated :
    ({ entry_type := .task, content := str "Buy milk", raw_line := [], line_number := 0,
       status := some .open_, signifier := some .delegated } : Entry).toMarkdown
      = str "# [ ] Buy milk" ∧
    parseEntry defaultSignifiersCfg (str "# [ ] Buy milk") 0 = none ∧
    parsesBackTo defaultSignifiersCfg
      { entry_type := .task, content := str "Buy milk", raw_line := [], line_number := 0,
        status := some .open_, signifier := some .delegated } = false := by
  refine ⟨by decide, by decide, by decide⟩

/-! Claim C1, amended: the round trip holds for well-formed entries. -/

/-- Content on which the grammar is lossless: nonempty, already trimmed, no
newline and no migration-arrow characters. -/
def cleanContent (c : Str) : Bool :=
  !c.isEmpty && trimLeft c == c && trimRight c == c &&
  !c.contains '\n' && !c.contains '→' && !c.contains '←'

/-- A migration-hint token the grammar can represent: nonempty, no
whitespace, no arrow characters. -/
def cleanTok (t : Str) : Bool :=
  !t.isEmpty && t.all (fun ch => !isWs ch) && !t.contains '→' && !t.contains '←'

/-- Migration hints survive the round trip only on tasks (the parser drops
them when building events and notes). -/
def hintOK (ty : EntryType) : Option Str → Bool
  | none => true
  | some t => (ty == EntryType.task) && cleanTok t

/-- The entries for which the round trip holds (see
`roundtrip_fails_for_delegated` for why delegated is excluded; a task must
carry a status and only tasks may carry hints; carrying both hints at once
is not survivable because the parser strips the `→` suffix before the `←`
suffix while to_markdown emits them in that same order). -/
def roundTripSafe (e : Entry) : Bool :=
  cleanContent e.content &&
  ((e.entry_type == EntryType.task) == e.status.isSome) &&
  !(e.signifier == some Signifier.delegated) &&
  hintOK e.entry_type e.migrated_to &&
  hintOK e.entry_type e.migrated_from &&
  !(e.migrated_to.isSome && e.migrated_from.isSome)

theorem mem_of_mem_takeWhile {p : Char → Bool} {x : Char} {l : Str}
    (h : x ∈ l.takeWhile p) : x ∈ l := by
  induction l with
  | nil => simp at h
  | cons a t ih =>
    rw [List.takeWhile_cons] at h
    by_cases ha : p a
    · rw [if_pos ha] at h
      rcases List.mem_cons.mp h with h1 | h1
      · exact h1 ▸ List.mem_cons_self a t
      · exact List.mem_cons_of_mem a (ih h1)
    · rw [if_neg ha] at h; simp at h

theorem mem_of_mem_dropWhile {p : Char → Bool} {x : Char} {l : Str}
    (h : x ∈ l.dropWhile p) : x ∈ l := by
  induction l with
  | nil => simp at h
  | cons a t ih =>
    rw [List.dropWhile_cons] at h
    by_cases ha : p a
    · rw [if_pos ha] at h; exact List.mem_cons_of_mem a (ih h)
    · rwa [if_neg ha] at h

theorem mem_of_mem_trimRight {x : Char} {l : Str} (h : x ∈ trimRight l) : x ∈ l := by
  rw [trimRight, List.mem_reverse] at h
  exact List.mem_reverse.mp (mem_of_mem_dropWhile h)

theorem mem_of_mem_lastWord {x : Char} {l : Str} (h : x ∈ lastWord l) : x ∈ l := by
  rw [lastWord, List.mem_reverse] at h
  exact mem_of_mem_trimRight (List.mem_reverse.mp (mem_of_mem_takeWhile h))

theorem firstIdxOf_eq_none {a : Char} {l : Str} (h : a ∉ l) : firstIdxOf a l = none := by
  induction l with
  | nil => rfl
  | cons c t ih =>
    have hca : ¬(c = a) := fun hc => h (hc ▸ List.mem_cons_self c t)
    rw [firstIdxOf, if_neg hca, ih (fun ht => h (List.mem_cons_of_mem c ht))]
    rfl

/-- A migration pattern whose arrow does not occur in the line does not match. -/
theorem splitMig_none {arrow : Char} {l : Str} (h : arrow ∉ l) :
    splitMig arrow l = none := by
  have hw : arrow ∉ lastWord l := fun hx => h (mem_of_mem_lastWord hx)
  rw [splitMig, firstIdxOf_eq_none hw]

theorem takeWhile_append_all {p : Char → Bool} {l1 : Str} (l2 : Str)
    (h : ∀ x ∈ l1, p x = true) : (l1 ++ l2).takeWhile p = l1 ++ l2.takeWhile p := by
  induction l1 with
  | nil => simp
  | cons a t ih =>
    rw [List.cons_append, List.takeWhile_cons, if_pos (h a (List.mem_cons_self a t)),
      ih (fun x hx => h x (List.mem_cons_of_mem a hx)), List.cons_append]

theorem take_len_append (l1 l2 : Str) (n : Nat) :
    (l1 ++ l2).take (l1.length + n) = l1 ++ l2.take n := by
  induction l1 with
  | nil => simp
  | cons a t ih => simp [List.cons_append, List.take_cons, Nat.succ_add, ih]

theorem trimRight_snoc_space (l : Str) : trimRight (l ++ [' ']) = trimRight l := by
  rw [trimRight, trimRight, List.reverse_append]
  simp [List.dropWhile_cons, isWs]

theorem dropWhile_append_full {p : Char → Bool} (l1 l2 : Str) :
    (l1 ++ l2).dropWhile p =
      if (l1.dropWhile p).isEmpty then l2.dropWhile p else l1.dropWhile p ++ l2 := by
  induction l1 with
  | nil => simp
  | cons a t ih =>
    rw [List.cons_append, List.dropWhile_cons, List.dropWhile_cons]
    by_cases ha : p a
    · simp only [if_pos ha]; exact ih
    · simp [if_neg ha]

theorem strip_snoc_space (l : Str) : strip (l ++ [' ']) = strip l := by
  rw [strip, strip, trimLeft, trimLeft, dropWhile_append_full]
  by_cases hl : (l.dropWhile isWs).isEmpty
  · rw [if_pos hl]
    have : l.dropWhile isWs = [] := by
      cases hc : l.dropWhile isWs
      · rfl
      · rw [hc] at hl; simp [List.isEmpty] at hl
    rw [this]
    decide
  · rw [if_neg hl]
    exact trimRight_snoc_space _

/-- The shape of a successful migration-suffix match: when the line is
`base ++ " " ++ arrow ++ token` with a nonempty whitespace-free token, the
pattern strips the suffix, capturing the token and stripping the retained
text. -/
theorem splitMig_suffix {arrow : Char} (harr : isWs arrow = false)
    (base t : Str) (ht : ¬t.isEmpty) (htw : ∀ x ∈ t, isWs x = false) :
    splitMig arrow (base ++ ' ' :: arrow :: t) = some (strip base, t) := by
  have htne : t ≠ [] := by cases t; simp at ht; simp
  have hrevne : t.reverse ≠ [] := by simpa using htne
  have hrev2 : (' ' :: arrow :: t).reverse = t.reverse ++ [arrow, ' '] := by simp
  have htrim : trimRight (base ++ ' ' :: arrow :: t) = base ++ ' ' :: arrow :: t := by
    apply trimRight_eq_self
    intro x hx
    rw [List.reverse_append, hrev2, List.append_assoc,
      List.head?_append_of_ne_nil _ hrevne] at hx
    exact htw x (List.mem_reverse.mp (List.mem_of_mem_head? hx))
  have hword : lastWord (base ++ ' ' :: arrow :: t) = arrow :: t := by
    rw [lastWord, htrim, List.reverse_append, hrev2, List.append_assoc,
      takeWhile_append_all _ (fun x hx => by rw [htw x (List.mem_reverse.mp hx)]; rfl)]
    have h2 : List.takeWhile (fun c => !isWs c) ([arrow, ' '] ++ base.reverse)
        = [arrow] := by
      rw [show ([arrow, ' '] ++ base.reverse : Str) = arrow :: ' ' :: base.reverse from rfl,
        List.takeWhile_cons, List.takeWhile_cons]
      simp [harr, show isWs ' ' = true from rfl]
    rw [h2]
    simp
  have hlen : 0 + 1 < (arrow :: t).length := by
    simp only [List.length_cons]
    have := List.length_pos.mpr htne
    omega
  have hidx : firstIdxOf arrow (arrow :: t) = some 0 := by
    rw [firstIdxOf, if_pos rfl]
  have hlencalc : (base ++ ' ' :: arrow :: t).length - (arrow :: t).length + 0
      = base.length + 1 := by
    simp only [List.length_append, List.length_cons]
    omega
  rw [splitMig]
  simp only [htrim, hword, hidx, hlencalc]
  rw [if_pos hlen, take_len_append base (' ' :: arrow :: t) 1,
    show (' ' :: arrow :: t).take 1 = [' '] from rfl, strip_snoc_space]
  simp

theorem sigChar_not_ws (s : Signifier) : isWs (sigChar s) = false := by
  cases s <;> rfl

theorem statusOfChar_statusChar (st : TaskStatus) : statusOfChar (statusChar st) = some st := by
  cases st <;> rfl

theorem statusMarker_some (st : TaskStatus) :
    statusMarker (some st) = ['[', statusChar st, ']'] := by
  cases st <;> rfl

theorem sigStage_sigchar (s : Signifier) (r : Str)
    (hr : ∀ x, r.head? = some x → isWs x = false) :
    sigStage defaultSignifiersCfg (sigChar s :: ' ' :: r) = (some s, r) := by
  have hany : (defaultSignifiersCfg.any fun p => p.1 == sigChar s) = true := by
    cases s <;> rfl
  have hget : getSignifierFromChar (sigChar s) defaultSignifiersCfg = some s := by
    cases s <;> rfl
  rw [sigStage, if_pos (by rw [hany]; rfl), hget]
  rw [trimLeft, List.dropWhile_cons, if_pos (by rfl), dropWhile_eq_self_of_head hr]

theorem sigStage_skip (sigs : SigCfg) (m : Char) (rest : Str)
    (hc : (sigs.any fun p => p.1 == m) = false) :
    sigStage sigs (m :: rest) = (none, m :: rest) := by
  cases rest with
  | nil => rfl
  | cons c2 r => rw [sigStage, if_neg (by rw [hc]; simp)]

theorem takeWhile_ne_newline {c : Str} (h : '\n' ∉ c) :
    c.takeWhile (fun ch => ch != '\n') = c := by
  induction c with
  | nil => rfl
  | cons a t ih =>
    have ha : ¬a = '\n' := fun hh => h (hh ▸ List.mem_cons_self a t)
    rw [List.takeWhile_cons, if_pos (by simp [ha]),
      ih (fun hm => h (List.mem_cons_of_mem a hm))]

theorem migStage_none {l : Str} (h1 : '→' ∉ l) (h2 : '←' ∉ l) :
    migStage l = ((none, none), l) := by
  rw [migStage]
  simp only [splitMig_none h1, splitMig_none h2]

theorem migStage_to (base t : Str) (hb : strip base = base) (ht : ¬t.isEmpty)
    (htw : ∀ x ∈ t, isWs x = false) (hbL : '←' ∉ base) :
    migStage (base ++ ' ' :: '→' :: t) = ((some t, none), base) := by
  have hs1 := @splitMig_suffix '→' (by rfl) base t ht htw
  rw [hb] at hs1
  have hs2 : splitMig '←' base = none := splitMig_none hbL
  rw [migStage]
  simp only [hs1, hs2]

theorem migStage_from (base t : Str) (hb : strip base = base) (ht : ¬t.isEmpty)
    (htw : ∀ x ∈ t, isWs x = false) (hbR : '→' ∉ base) (htR : '→' ∉ t) :
    migStage (base ++ ' ' :: '←' :: t) = ((none, some t), base) := by
  have hs1 : splitMig '→' (base ++ ' ' :: '←' :: t) = none := by
    apply splitMig_none
    intro hm
    rcases List.mem_append.mp hm with hm | hm
    · exact hbR hm
    · rcases List.mem_cons.mp hm with hm | hm
      · exact absurd hm (by decide)
      · rcases List.mem_cons.mp hm with hm | hm
        · exact absurd hm (by decide)
        · exact htR hm
  have hs2 := @splitMig_suffix '←' (by rfl) base t ht htw
  rw [hb] at hs2
  rw [migStage]
  simp only [hs1, hs2]

theorem matchTask_shape (sc : Char) (st : TaskStatus) (hsc : statusOfChar sc = some st)
    (c : Str) (hc1 : c.isEmpty = false) (hh : ∀ x, c.head? = some x → isWs x = false)
    (hnl : '\n' ∉ c) (hstrip : strip c = c) :
    matchTask ('[' :: sc :: ']' :: ' ' :: c) = some (sc, c) := by
  rw [matchTask]
  simp only [hsc, Option.isSome_some, if_true]
  rw [if_pos (by rfl)]
  have hbody : ((' ' :: c).dropWhile isWs).takeWhile (fun ch => ch != '\n') = c := by
    rw [List.dropWhile_cons, if_pos (by rfl), dropWhile_eq_self_of_head hh,
      takeWhile_ne_newline hnl]
  rw [hbody, if_neg (by rw [hc1]; simp), hstrip]

theorem matchEvent_shape (c : Str) (hc1 : c.isEmpty = false)
    (hh : ∀ x, c.head? = some x → isWs x = false)
    (hnl : '\n' ∉ c) (hstrip : strip c = c) :
    matchEvent ('○' :: ' ' :: c) = some c := by
  rw [matchEvent, if_pos rfl]
  have hbody : ((' ' :: c).dropWhile isWs).takeWhile (fun ch => ch != '\n') = c := by
    rw [List.dropWhile_cons, if_pos (by rfl), dropWhile_eq_self_of_head hh,
      takeWhile_ne_newline hnl]
  rw [hbody, if_neg (by rw [hc1]; simp), hstrip]

theorem matchNote_shape (c : Str) (hc1 : c.isEmpty = false)
    (hh : ∀ x, c.head? = some x → isWs x = false)
    (hnl : '\n' ∉ c) (hstrip : strip c = c) :
    matchNote ('-' :: ' ' :: c) = some c := by
  rw [matchNote]
  rw [if_pos (by rfl)]
  have hbody : ((' ' :: c).dropWhile isWs).takeWhile (fun ch => ch != '\n') = c := by
    rw [List.dropWhile_cons, if_pos (by rfl), dropWhile_eq_self_of_head hh,
      takeWhile_ne_newline hnl]
  rw [hbody, if_neg (by rw [hc1]; simp), hstrip]

theorem mem_of_getLast?_eq {a : Char} {l : Str} (h : l.getLast? = some a) : a ∈ l := by
  rw [← List.head?_reverse] at h
  exact List.mem_reverse.mp (List.mem_of_mem_head? h)

theorem strip_eq_self_of_ends {l : Str}
    (h1 : ∀ x, l.head? = some x → isWs x = false)
    (h2 : ∀ x, l.getLast? = some x → isWs x = false) : strip l = l := by
  refine strip_eq_self h1 ?_
  intro x hx
  rw [List.head?_reverse] at hx
  exact h2 x hx

theorem not_mem_of_contains_false {a : Char} {l : Str} (h : l.contains a = false) :
    a ∉ l := by
  intro hm
  have hc : l.contains a = true := by simpa using hm
  rw [h] at hc
  exact Bool.false_ne_true hc

theorem dispatchStage_task (raw : Str) (n : Nat) (sg : Option Signifier)
    (mt mf : Option Str) (st : TaskStatus) (c : Str)
    (hc1 : c.isEmpty = false) (hh : ∀ x, c.head? = some x → isWs x = false)
    (hnl : '\n' ∉ c) (hstrip : strip c = c) :
    dispatchStage raw n sg mt mf ('[' :: statusChar st :: ']' :: ' ' :: c)
      = some { entry_type := .task, content := c, raw_line := raw, line_number := n,
               status := some st, signifier := sg, migrated_to := mt,
               migrated_from := mf } := by
  rw [dispatchStage,
    matchTask_shape (statusChar st) st (statusOfChar_statusChar st) c hc1 hh hnl hstrip]
  simp [statusOfChar_statusChar]

theorem dispatchStage_event (raw : Str) (n : Nat) (sg : Option Signifier)
    (mt mf : Option Str) (c : Str)
    (hc1 : c.isEmpty = false) (hh : ∀ x, c.head? = some x → isWs x = false)
    (hnl : '\n' ∉ c) (hstrip : strip c = c) :
    dispatchStage raw n sg mt mf ('○' :: ' ' :: c)
      = some { entry_type := .event, content := c, raw_line := raw, line_number := n,
               signifier := sg } := by
  rw [dispatchStage]
  have h1 : matchTask ('○' :: ' ' :: c) = none := rfl
  rw [h1, matchEvent_shape c hc1 hh hnl hstrip]

theorem dispatchStage_note (raw : Str) (n : Nat) (sg : Option Signifier)
    (mt mf : Option Str) (c : Str)
    (hc1 : c.isEmpty = false) (hh : ∀ x, c.head? = some x → isWs x = false)
    (hnl : '\n' ∉ c) (hstrip : strip c = c) :
    dispatchStage raw n sg mt mf ('-' :: ' ' :: c)
      = some { entry_type := .note, content := c, raw_line := raw, line_number := n,
               signifier := sg } := by
  rw [dispatchStage]
  have h1 : matchTask ('-' :: ' ' :: c) = none := rfl
  have h2 : matchEvent ('-' :: ' ' :: c) = none := by
    rw [matchEvent, if_neg (by decide)]
  rw [h1, h2, matchNote_shape c hc1 hh hnl hstrip]

theorem sigChar_ne_hash (s : Signifier) (h : (s == Signifier.delegated) = false) :
    (sigChar s == '#') = false := by
  cases s <;> first | rfl | simp at h

theorem parseEntry_sig_line (s : Signifier) (body : Str) (n : Nat)
    (hdel : (s == Signifier.delegated) = false)
    (hbh : ∀ x, body.head? = some x → isWs x = false)
    (hstrip : strip (sigChar s :: ' ' :: body) = sigChar s :: ' ' :: body) :
    parseEntry defaultSignifiersCfg (sigChar s :: ' ' :: body) n =
      dispatchStage (sigChar s :: ' ' :: body) n (some s)
        (migStage body).1.1 (migStage body).1.2 (migStage body).2 := by
  rw [parseEntry]
  simp only [hstrip]
  rw [if_neg (by simp), if_neg (by simp [sigChar_ne_hash s hdel])]
  rw [sigStage_sigchar s body hbh]

theorem parseEntry_plain_line (m0 : Char) (rest : Str) (n : Nat)
    (hm : (defaultSignifiersCfg.any fun p => p.1 == m0) = false)
    (hhash : (m0 == '#') = false)
    (hstrip : strip (m0 :: rest) = m0 :: rest) :
    parseEntry defaultSignifiersCfg (m0 :: rest) n =
      dispatchStage (m0 :: rest) n none
        (migStage (m0 :: rest)).1.1 (migStage (m0 :: rest)).1.2
        (migStage (m0 :: rest)).2 := by
  rw [parseEntry]
  simp only [hstrip]
  rw [if_neg (by simp), if_neg (by simp [hhash])]
  rw [sigStage_skip _ m0 rest hm]

theorem arrow_ne_statusChar (a : Char) (ha : a = '→' ∨ a = '←') (st : TaskStatus) :
    ¬a = statusChar st := by
  rcases ha with ha | ha <;> subst ha <;> cases st <;> decide

theorem not_mem_taskBase {a : Char} (ha : a = '→' ∨ a = '←') (st : TaskStatus) {c : Str}
    (hac : a ∉ c) : a ∉ '[' :: statusChar st :: ']' :: ' ' :: c := by
  intro hm
  rcases List.mem_cons.mp hm with h | hm
  · rcases ha with ha | ha <;> subst ha <;> simp at h
  rcases List.mem_cons.mp hm with h | hm
  · exact arrow_ne_statusChar a ha st h
  rcases List.mem_cons.mp hm with h | hm
  · rcases ha with ha | ha <;> subst ha <;> simp at h
  rcases List.mem_cons.mp hm with h | hm
  · rcases ha with ha | ha <;> subst ha <;> simp at h
  exact hac hm

theorem taskBase_strip (st : TaskStatus) (c : Str)
    (hcne : c ≠ [])
    (hgl : ∀ x, c.getLast? = some x → isWs x = false) :
    strip ('[' :: statusChar st :: ']' :: ' ' :: c)
      = '[' :: statusChar st :: ']' :: ' ' :: c := by
  apply strip_eq_self_of_ends
  · intro x hx
    simp only [List.head?_cons, Option.some.injEq] at hx
    subst hx
    rfl
  · intro x hx
    rw [show ('[' :: statusChar st :: ']' :: ' ' :: c : Str)
        = ['[', statusChar st, ']', ' '] ++ c from rfl,
      List.getLast?_append_of_ne_nil _ hcne] at hx
    exact hgl x hx

theorem parse_body_task_none (raw : Str) (n : Nat) (sgo : Option Signifier)
    (st' : TaskStatus) (c : Str) (hc1 : c.isEmpty = false)
    (hh : ∀ x, c.head? = some x → isWs x = false) (hnl : '\n' ∉ c)
    (hstrip : strip c = c) (hat : '→' ∉ c) (haf : '←' ∉ c) :
    dispatchStage raw n sgo
      (migStage ('[' :: statusChar st' :: ']' :: ' ' :: c)).1.1
      (migStage ('[' :: statusChar st' :: ']' :: ' ' :: c)).1.2
      (migStage ('[' :: statusChar st' :: ']' :: ' ' :: c)).2
      = some { entry_type := .task, content := c, raw_line := raw, line_number := n,
               status := some st', signifier := sgo, migrated_to := none,
               migrated_from := none } := by
  rw [migStage_none (not_mem_taskBase (Or.inl rfl) st' hat)
    (not_mem_taskBase (Or.inr rfl) st' haf)]
  exact dispatchStage_task raw n sgo none none st' c hc1 hh hnl hstrip

theorem parse_body_task_to (raw : Str) (n : Nat) (sgo : Option Signifier)
    (st' : TaskStatus) (c tt : Str) (hc1 : c.isEmpty = false) (hcne : c ≠ [])
    (hh : ∀ x, c.head? = some x → isWs x = false)
    (hgl : ∀ x, c.getLast? = some x → isWs x = false) (hnl : '\n' ∉ c)
    (hstrip : strip c = c) (haf : '←' ∉ c)
    (htt1 : tt.isEmpty = false) (httw : ∀ x ∈ tt, isWs x = false) :
    dispatchStage raw n sgo
      (migStage (('[' :: statusChar st' :: ']' :: ' ' :: c) ++ ' ' :: '→' :: tt)).1.1
      (migStage (('[' :: statusChar st' :: ']' :: ' ' :: c) ++ ' ' :: '→' :: tt)).1.2
      (migStage (('[' :: statusChar st' :: ']' :: ' ' :: c) ++ ' ' :: '→' :: tt)).2
      = some { entry_type := .task, content := c, raw_line := raw, line_number := n,
               status := some st', signifier := sgo, migrated_to := some tt,
               migrated_from := none } := by
  rw [migStage_to _ tt (taskBase_strip st' c hcne hgl) (by rw [htt1]; simp) httw
    (not_mem_taskBase (Or.inr rfl) st' haf)]
  exact dispatchStage_task raw n sgo (some tt) none st' c hc1 hh hnl hstrip

theorem parse_body_task_from (raw : Str) (n : Nat) (sgo : Option Signifier)
    (st' : TaskStatus) (c tt : Str) (hc1 : c.isEmpty = false) (hcne : c ≠ [])
    (hh : ∀ x, c.head? = some x → isWs x = false)
    (hgl : ∀ x, c.getLast? = some x → isWs x = false) (hnl : '\n' ∉ c)
    (hstrip : strip c = c) (hat : '→' ∉ c)
    (htt1 : tt.isEmpty = false) (httw : ∀ x ∈ tt, isWs x = false) (httR : '→' ∉ tt) :
    dispatchStage raw n sgo
      (migStage (('[' :: statusChar st' :: ']' :: ' ' :: c) ++ ' ' :: '←' :: tt)).1.1
      (migStage (('[' :: statusChar st' :: ']' :: ' ' :: c) ++ ' ' :: '←' :: tt)).1.2
      (migStage (('[' :: statusChar st' :: ']' :: ' ' :: c) ++ ' ' :: '←' :: tt)).2
      = some { entry_type := .task, content := c, raw_line := raw, line_number := n,
               status := some st', signifier := sgo, migrated_to := none,
               migrated_from := some tt } := by
  rw [migStage_from _ tt (taskBase_strip st' c hcne hgl) (by rw [htt1]; simp) httw
    (not_mem_taskBase (Or.inl rfl) st' hat) httR]
  exact dispatchStage_task raw n sgo none (some tt) st' c hc1 hh hnl hstrip

theorem eventBase_not_mem {a : Char} (ha : a = '→' ∨ a = '←') {c : Str}
    (hac : a ∉ c) : a ∉ '○' :: ' ' :: c := by
  intro hm
  rcases List.mem_cons.mp hm with h | hm
  · rcases ha with ha | ha <;> subst ha <;> simp at h
  rcases List.mem_cons.mp hm with h | hm
  · rcases ha with ha | ha <;> subst ha <;> simp at h
  exact hac hm

theorem noteBase_not_mem {a : Char} (ha : a = '→' ∨ a = '←') {c : Str}
    (hac : a ∉ c) : a ∉ '-' :: ' ' :: c := by
  intro hm
  rcases List.mem_cons.mp hm with h | hm
  · rcases ha with ha | ha <;> subst ha <;> simp at h
  rcases List.mem_cons.mp hm with h | hm
  · rcases ha with ha | ha <;> subst ha <;> simp at h
  exact hac hm

theorem parse_body_event (raw : Str) (n : Nat) (sgo : Option Signifier)
    (c : Str) (hc1 : c.isEmpty = false)
    (hh : ∀ x, c.head? = some x → isWs x = false) (hnl : '\n' ∉ c)
    (hstrip : strip c = c) (hat : '→' ∉ c) (haf : '←' ∉ c) :
    dispatchStage raw n sgo
      (migStage ('○' :: ' ' :: c)).1.1
      (migStage ('○' :: ' ' :: c)).1.2
      (migStage ('○' :: ' ' :: c)).2
      = some { entry_type := .event, content := c, raw_line := raw, line_number := n,
               signifier := sgo } := by
  rw [migStage_none (eventBase_not_mem (Or.inl rfl) hat) (eventBase_not_mem (Or.inr rfl) haf)]
  exact dispatchStage_event raw n sgo none none c hc1 hh hnl hstrip

theorem parse_body_note (raw : Str) (n : Nat) (sgo : Option Signifier)
    (c : Str) (hc1 : c.isEmpty = false)
    (hh : ∀ x, c.head? = some x → isWs x = false) (hnl : '\n' ∉ c)
    (hstrip : strip c = c) (hat : '→' ∉ c) (haf : '←' ∉ c) :
    dispatchStage raw n sgo
      (migStage ('-' :: ' ' :: c)).1.1
      (migStage ('-' :: ' ' :: c)).1.2
      (migStage ('-' :: ' ' :: c)).2
      = some { entry_type := .note, content := c, raw_line := raw, line_number := n,
               signifier := sgo } := by
  rw [migStage_none (noteBase_not_mem (Or.inl rfl) hat) (noteBase_not_mem (Or.inr rfl) haf)]
  exact dispatchStage_note raw n sgo none none c hc1 hh hnl hstrip

theorem strip_prefix_content (pre c : Str)
    (hpre : ∀ x, pre.head? = some x → isWs x = false) (hprene : pre ≠ [])
    (hcne : c ≠ []) (hgl : ∀ x, c.getLast? = some x → isWs x = false) :
    strip (pre ++ c) = pre ++ c := by
  apply strip_eq_self_of_ends
  · intro x hx
    rw [List.head?_append_of_ne_nil _ hprene] at hx
    exact hpre x hx
  · intro x hx
    rw [List.getLast?_append_of_ne_nil _ hcne] at hx
    exact hgl x hx

/-- C1 amended: the round trip `parse(to_markdown(entry)) == entry` (modulo
raw_line/line_number) holds, under the default five-signifier
configuration, for every well-formed entry: trimmed newline- and
arrow-free nonempty content, a status exactly on tasks, any signifier
except delegated, and at most one migration hint, only on a task, with a
nonempty whitespace- and arrow-free token. -/
theorem roundtrip_holds_for_safe_entries (e : Entry) (hwf : roundTripSafe e = true) :
    parsesBackTo defaultSignifiersCfg e = true := by
  obtain ⟨ty, c, raw, n, st, sg, mt, mf⟩ := e
  simp only [roundTripSafe, Bool.and_eq_true] at hwf
  obtain ⟨⟨⟨⟨⟨hcc, hts⟩, hdel⟩, hto⟩, hfrom⟩, hboth⟩ := hwf
  simp only [cleanContent, Bool.and_eq_true, Bool.not_eq_true', beq_iff_eq] at hcc
  obtain ⟨⟨⟨⟨⟨hne, hTL⟩, hTR⟩, hNL⟩, hAT⟩, hAF⟩ := hcc
  have hh : ∀ x, c.head? = some x → isWs x = false := head_of_trimLeft_self hTL
  have hgl : ∀ x, c.getLast? = some x → isWs x = false := by
    intro x hx
    exact revhead_of_trimRight_self hTR x (by rwa [List.head?_reverse])
  have hstripc : strip c = c := by rw [strip, hTL, hTR]
  have hnlm : '\n' ∉ c := not_mem_of_contains_false hNL
  have hatm : '→' ∉ c := not_mem_of_contains_false hAT
  have hafm : '←' ∉ c := not_mem_of_contains_false hAF
  have hcne : c ≠ [] := by
    cases c with
    | nil => simp at hne
    | cons a t => simp
  cases ty with
  | task =>
    have hst : st.isSome = true := by simpa using hts
    obtain ⟨st', rfl⟩ : ∃ s, st = some s := Option.isSome_iff_exists.mp hst
    cases mt with
    | some tt =>
      cases mf with
      | some _ => simp at hboth
      | none =>
        simp only [hintOK, Bool.and_eq_true, cleanTok, Bool.not_eq_true'] at hto
        obtain ⟨_, ⟨⟨⟨htt1, httw'⟩, httR'⟩, httL'⟩⟩ := hto
        have httw : ∀ x ∈ tt, isWs x = false := by
          intro x hx
          have := (List.all_eq_true.mp httw') x hx
          simpa using this
        have httne : tt ≠ [] := by
          cases tt with
          | nil => simp at htt1
          | cons a t => simp
        have hgltt : ∀ x, tt.getLast? = some x → isWs x = false := fun x hx =>
          httw x (mem_of_getLast?_eq hx)
        cases sg with
        | some s =>
          have hdel' : (s == Signifier.delegated) = false := by simpa using hdel
          have hline : Entry.toMarkdown
              ⟨.task, c, raw, n, some st', some s, some tt, none⟩ = sigChar s :: ' ' ::
              (('[' :: statusChar st' :: ']' :: ' ' :: c) ++ ' ' :: '→' :: tt) := by
            rw [show Entry.toMarkdown ⟨.task, c, raw, n, some st', some s, some tt, none⟩
                = joinSp [[sigChar s], statusMarker (some st'), c, '→' :: tt]
              from by simp [Entry.toMarkdown, htt1], statusMarker_some]
            simp [joinSp]
          rw [parsesBackTo, hline]
          have hstripL : strip (sigChar s :: ' ' ::
              (('[' :: statusChar st' :: ']' :: ' ' :: c) ++ ' ' :: '→' :: tt))
              = sigChar s :: ' ' ::
              (('[' :: statusChar st' :: ']' :: ' ' :: c) ++ ' ' :: '→' :: tt) := by
            have hre : sigChar s :: ' ' ::
                (('[' :: statusChar st' :: ']' :: ' ' :: c) ++ ' ' :: '→' :: tt)
                = (sigChar s :: ' ' :: '[' :: statusChar st' :: ']' :: ' ' ::
                  (c ++ [' ', '→'])) ++ tt := by simp
            rw [hre]
            refine strip_prefix_content _ tt ?_ (by simp) httne hgltt
            intro x hx
            simp only [List.head?_cons, Option.some.injEq] at hx
            subst hx
            exact sigChar_not_ws s
          rw [parseEntry_sig_line s _ 0 hdel' ?_ hstripL]
          · rw [parse_body_task_to _ 0 (some s) st' c tt hne hcne hh hgl hnlm hstripc
              hafm htt1 httw]
            simp [Entry.eqMod]
          · intro x hx
            rw [List.head?_append_of_ne_nil _ (by simp)] at hx
            simp only [List.head?_cons, Option.some.injEq] at hx
            subst hx
            rfl
        | none =>
          have hline : Entry.toMarkdown
              ⟨.task, c, raw, n, some st', none, some tt, none⟩ =
              ('[' :: statusChar st' :: ']' :: ' ' :: c) ++ ' ' :: '→' :: tt := by
            rw [show Entry.toMarkdown ⟨.task, c, raw, n, some st', none, some tt, none⟩
                = joinSp [statusMarker (some st'), c, '→' :: tt]
              from by simp [Entry.toMarkdown, htt1], statusMarker_some]
            simp [joinSp]
          rw [parsesBackTo, hline]
          have hstripL : strip (('[' :: statusChar st' :: ']' :: ' ' :: c)
              ++ ' ' :: '→' :: tt)
              = ('[' :: statusChar st' :: ']' :: ' ' :: c) ++ ' ' :: '→' :: tt := by
            have hre : ('[' :: statusChar st' :: ']' :: ' ' :: c) ++ ' ' :: '→' :: tt
                = ('[' :: statusChar st' :: ']' :: ' ' :: (c ++ [' ', '→'])) ++ tt := by
              simp
            rw [hre]
            refine strip_prefix_content _ tt ?_ (by simp) httne hgltt
            intro x hx
            simp only [List.head?_cons, Option.some.injEq] at hx
            subst hx
            rfl
          rw [show (('[' :: statusChar st' :: ']' :: ' ' :: c) ++ ' ' :: '→' :: tt : Str)
              = '[' :: ((statusChar st' :: ']' :: ' ' :: c) ++ ' ' :: '→' :: tt)
            from by simp] at hstripL ⊢
          rw [parseEntry_plain_line '[' _ 0 (by decide) (by decide) hstripL]
          rw [show ('[' :: ((statusChar st' :: ']' :: ' ' :: c) ++ ' ' :: '→' :: tt) : Str)
              = ('[' :: statusChar st' :: ']' :: ' ' :: c) ++ ' ' :: '→' :: tt
            from by simp]
          rw [parse_body_task_to _ 0 none st' c tt hne hcne hh hgl hnlm hstripc
            hafm htt1 httw]
          simp [Entry.eqMod]
    | none =>
      cases mf with
      | some tt =>
        simp only [hintOK, Bool.and_eq_true, cleanTok, Bool.not_eq_true'] at hfrom
        obtain ⟨_, ⟨⟨⟨htt1, httw'⟩, httR'⟩, httL'⟩⟩ := hfrom
        have httw : ∀ x ∈ tt, isWs x = false := by
          intro x hx
          have := (List.all_eq_true.mp httw') x hx
          simpa using this
        have httne : tt ≠ [] := by
          cases tt with
          | nil => simp at htt1
          | cons a t => simp
        have hgltt : ∀ x, tt.getLast? = some x → isWs x = false := fun x hx =>
          httw x (mem_of_getLast?_eq hx)
        have httR : '→' ∉ tt := not_mem_of_contains_false httR'
        cases sg with
        | some s =>
          have hdel' : (s == Signifier.delegated) = false := by simpa using hdel
          have hline : Entry.toMarkdown
              ⟨.task, c, raw, n, some st', some s, none, some tt⟩ = sigChar s :: ' ' ::
              (('[' :: statusChar st' :: ']' :: ' ' :: c) ++ ' ' :: '←' :: tt) := by
            rw [show Entry.toMarkdown ⟨.task, c, raw, n, some st', some s, none, some tt⟩
                = joinSp [[sigChar s], statusMarker (some st'), c, '←' :: tt]
              from by simp [Entry.toMarkdown, htt1], statusMarker_some]
            simp [joinSp]
          rw [parsesBackTo, hline]
          have hstripL : strip (sigChar s :: ' ' ::
              (('[' :: statusChar st' :: ']' :: ' ' :: c) ++ ' ' :: '←' :: tt))
              = sigChar s :: ' ' ::
              (('[' :: statusChar st' :: ']' :: ' ' :: c) ++ ' ' :: '←' :: tt) := by
            have hre : sigChar s :: ' ' ::
                (('[' :: statusChar st' :: ']' :: ' ' :: c) ++ ' ' :: '←' :: tt)
                = (sigChar s :: ' ' :: '[' :: statusChar st' :: ']' :: ' ' ::
                  (c ++ [' ', '←'])) ++ tt := by simp
            rw [hre]
            refine strip_prefix_content _ tt ?_ (by simp) httne hgltt
            intro x hx
            simp only [List.head?_cons, Option.some.injEq] at hx
            subst hx
            exact sigChar_not_ws s
          rw [parseEntry_sig_line s _ 0 hdel' ?_ hstripL]
          · rw [parse_body_task_from _ 0 (some s) st' c tt hne hcne hh hgl hnlm hstripc
              hatm htt1 httw httR]
            simp [Entry.eqMod]
          · intro x hx
            rw [List.head?_append_of_ne_nil _ (by simp)] at hx
            simp only [List.head?_cons, Option.some.injEq] at hx
            subst hx
            rfl
        | none =>
          have hline : Entry.toMarkdown
              ⟨.task, c, raw, n, some st', none, none, some tt⟩ =
              ('[' :: statusChar st' :: ']' :: ' ' :: c) ++ ' ' :: '←' :: tt := by
            rw [show Entry.toMarkdown ⟨.task, c, raw, n, some st', none, none, some tt⟩
                = joinSp [statusMarker (some st'), c, '←' :: tt]
              from by simp [Entry.toMarkdown, htt1], statusMarker_some]
            simp [joinSp]
          rw [parsesBackTo, hline]
          have hstripL : strip (('[' :: statusChar st' :: ']' :: ' ' :: c)
              ++ ' ' :: '←' :: tt)
              = ('[' :: statusChar st' :: ']' :: ' ' :: c) ++ ' ' :: '←' :: tt := by
            have hre : ('[' :: statusChar st' :: ']' :: ' ' :: c) ++ ' ' :: '←' :: tt
                = ('[' :: statusChar st' :: ']' :: ' ' :: (c ++ [' ', '←'])) ++ tt := by
              simp
            rw [hre]
            refine strip_prefix_content _ tt ?_ (by simp) httne hgltt
            intro x hx
            simp only [List.head?_cons, Option.some.injEq] at hx
            subst hx
            rfl
          rw [show (('[' :: statusChar st' :: ']' :: ' ' :: c) ++ ' ' :: '←' :: tt : Str)
              = '[' :: ((statusChar st' :: ']' :: ' ' :: c) ++ ' ' :: '←' :: tt)
            from by simp] at hstripL ⊢
          rw [parseEntry_plain_line '[' _ 0 (by decide) (by decide) hstripL]
          rw [show ('[' :: ((statusChar st' :: ']' :: ' ' :: c) ++ ' ' :: '←' :: tt) : Str)
              = ('[' :: statusChar st' :: ']' :: ' ' :: c) ++ ' ' :: '←' :: tt
            from by simp]
          rw [parse_body_task_from _ 0 none st' c tt hne hcne hh hgl hnlm hstripc
            hatm htt1 httw httR]
          simp [Entry.eqMod]
      | none =>
        cases sg with
        | some s =>
          have hdel' : (s == Signifier.delegated) = false := by simpa using hdel
          have hline : Entry.toMarkdown
              ⟨.task, c, raw, n, some st', some s, none, none⟩
              = sigChar s :: ' ' :: ('[' :: statusChar st' :: ']' :: ' ' :: c) := by
            rw [show Entry.toMarkdown ⟨.task, c, raw, n, some st', some s, none, none⟩
                = joinSp [[sigChar s], statusMarker (some st'), c]
              from by simp [Entry.toMarkdown], statusMarker_some]
            simp [joinSp]
          rw [parsesBackTo, hline]
          have hstripL : strip (sigChar s :: ' ' ::
              ('[' :: statusChar st' :: ']' :: ' ' :: c))
              = sigChar s :: ' ' :: ('[' :: statusChar st' :: ']' :: ' ' :: c) := by
            have hre : sigChar s :: ' ' :: ('[' :: statusChar st' :: ']' :: ' ' :: c)
                = (sigChar s :: ' ' :: '[' :: statusChar st' :: ']' :: [' ']) ++ c := by
              simp
            rw [hre]
            refine strip_prefix_content _ c ?_ (by simp) hcne hgl
            intro x hx
            simp only [List.head?_cons, Option.some.injEq] at hx
            subst hx
            exact sigChar_not_ws s
          rw [parseEntry_sig_line s _ 0 hdel' ?_ hstripL]
          · rw [parse_body_task_none _ 0 (some s) st' c hne hh hnlm hstripc hatm hafm]
            simp [Entry.eqMod]
          · intro x hx
            simp only [List.head?_cons, Option.some.injEq] at hx
            subst hx
            rfl
        | none =>
          have hline : Entry.toMarkdown
              ⟨.task, c, raw, n, some st', none, none, none⟩
              = '[' :: statusChar st' :: ']' :: ' ' :: c := by
            rw [show Entry.toMarkdown ⟨.task, c, raw, n, some st', none, none, none⟩
                = joinSp [statusMarker (some st'), c]
              from by simp [Entry.toMarkdown], statusMarker_some]
            simp [joinSp]
          rw [parsesBackTo, hline]
          have hstripL := taskBase_strip st' c hcne hgl
          rw [parseEntry_plain_line '[' _ 0 (by decide) (by decide) hstripL]
          rw [parse_body_task_none _ 0 none st' c hne hh hnlm hstripc hatm hafm]
          simp [Entry.eqMod]
  | event =>
    have hst : st = none := by
      cases st with
      | none => rfl
      | some s2 => simp at hts
    subst hst
    have hmt : mt = none := by
      cases mt with
      | none => rfl
      | some t2 => simp [hintOK] at hto
    have hmf : mf = none := by
      cases mf with
      | none => rfl
      | some t2 => simp [hintOK] at hfrom
    subst hmt; subst hmf
    cases sg with
    | some s =>
      have hdel' : (s == Signifier.delegated) = false := by simpa using hdel
      have hline : Entry.toMarkdown ⟨.event, c, raw, n, none, some s, none, none⟩
          = sigChar s :: ' ' :: ('○' :: ' ' :: c) := by
        rw [show Entry.toMarkdown ⟨.event, c, raw, n, none, some s, none, none⟩
            = joinSp [[sigChar s], ['○'], c] from by simp [Entry.toMarkdown]]
        simp [joinSp]
      rw [parsesBackTo, hline]
      have hstripL : strip (sigChar s :: ' ' :: ('○' :: ' ' :: c))
          = sigChar s :: ' ' :: ('○' :: ' ' :: c) := by
        have hre : sigChar s :: ' ' :: ('○' :: ' ' :: c)
            = (sigChar s :: ' ' :: '○' :: [' ']) ++ c := by simp
        rw [hre]
        refine strip_prefix_content _ c ?_ (by simp) hcne hgl
        intro x hx
        simp only [List.head?_cons, Option.some.injEq] at hx
        subst hx
        exact sigChar_not_ws s
      rw [parseEntry_sig_line s _ 0 hdel' ?_ hstripL]
      · rw [parse_body_event _ 0 (some s) c hne hh hnlm hstripc hatm hafm]
        simp [Entry.eqMod]
      · intro x hx
        simp only [List.head?_cons, Option.some.injEq] at hx
        subst hx
        rfl
    | none =>
      have hline : Entry.toMarkdown ⟨.event, c, raw, n, none, none, none, none⟩
          = '○' :: ' ' :: c := by
        rw [show Entry.toMarkdown ⟨.event, c, raw, n, none, none, none, none⟩
            = joinSp [['○'], c] from by simp [Entry.toMarkdown]]
        simp [joinSp]
      rw [parsesBackTo, hline]
      have hstripL : strip ('○' :: ' ' :: c) = '○' :: ' ' :: c := by
        have hre : ('○' :: ' ' :: c : Str) = ('○' :: [' ']) ++ c := by simp
        rw [hre]
        refine strip_prefix_content _ c ?_ (by simp) hcne hgl
        intro x hx
        simp only [List.head?_cons, Option.some.injEq] at hx
        subst hx
        rfl
      rw [parseEntry_plain_line '○' _ 0 (by decide) (by decide) hstripL]
      rw [parse_body_event _ 0 none c hne hh hnlm hstripc hatm hafm]
      simp [Entry.eqMod]
  | note =>
    have hst : st = none := by
      cases st with
      | none => rfl
      | some s2 => simp at hts
    subst hst
    have hmt : mt = none := by
      cases mt with
      | none => rfl
      | some t2 => simp [hintOK] at hto
    have hmf : mf = none := by
      cases mf with
      | none => rfl
      | some t2 => simp [hintOK] at hfrom
    subst hmt; subst hmf
    cases sg with
    | some s =>
      have hdel' : (s == Signifier.delegated) = false := by simpa using hdel
      have hline : Entry.toMarkdown ⟨.note, c, raw, n, none, some s, none, none⟩
          = sigChar s :: ' ' :: ('-' :: ' ' :: c) := by
        rw [show Entry.toMarkdown ⟨.note, c, raw, n, none, some s, none, none⟩
            = joinSp [[sigChar s], ['-'], c] from by simp [Entry.toMarkdown]]
        simp [joinSp]
      rw [parsesBackTo, hline]
      have hstripL : strip (sigChar s :: ' ' :: ('-' :: ' ' :: c))
          = sigChar s :: ' ' :: ('-' :: ' ' :: c) := by
        have hre : sigChar s :: ' ' :: ('-' :: ' ' :: c)
            = (sigChar s :: ' ' :: '-' :: [' ']) ++ c := by simp
        rw [hre]
        refine strip_prefix_content _ c ?_ (by simp) hcne hgl
        intro x hx
        simp only [List.head?_cons, Option.some.injEq] at hx
        subst hx
        exact sigChar_not_ws s
      rw [parseEntry_sig_line s _ 0 hdel' ?_ hstripL]
      · rw [parse_body_note _ 0 (some s) c hne hh hnlm hstripc hatm hafm]
        simp [Entry.eqMod]
      · intro x hx
        simp only [List.head?_cons, Option.some.injEq] at hx
        subst hx
        rfl
    | none =>
      have hline : Entry.toMarkdown ⟨.note, c, raw, n, none, none, none, none⟩
          = '-' :: ' ' :: c := by
        rw [show Entry.toMarkdown ⟨.note, c, raw, n, none, none, none, none⟩
            = joinSp [['-'], c] from by simp [Entry.toMarkdown]]
        simp [joinSp]
      rw [parsesBackTo, hline]
      have hstripL : strip ('-' :: ' ' :: c) = '-' :: ' ' :: c := by
        have hre : ('-' :: ' ' :: c : Str) = ('-' :: [' ']) ++ c := by simp
        rw [hre]
        refine strip_prefix_content _ c ?_ (by simp) hcne hgl
        intro x hx
        simp only [List.head?_cons, Option.some.injEq] at hx
        subst hx
        rfl
      rw [parseEntry_plain_line '-' _ 0 (by decide) (by decide) hstripL]
      rw [parse_body_note _ 0 none c hne hh hnlm hstripc hatm hafm]
      simp [Entry.eqMod]

/-- Witness for the amended C1 at a concrete safe entry. -/
theorem roundtrip_witness :
    roundTripSafe ({ entry_type := .task, content := str "Buy milk",
                     raw_line := [], line_number := 7, status := some .complete,
                     signifier := some .waiting,
                     migrated_to := some (str "months/2024-12.md"),
                     migrated_from := none } : Entry) = true ∧
    parsesBackTo defaultSignifiersCfg
      ({ entry_type := .task, content := str "Buy milk",
         raw_line := [], line_number := 7, status := some .complete,
         signifier := some .waiting,
         migrated_to := some (str "months/2024-12.md"),
         migrated_from := none } : Entry) = true :=
  ⟨by decide, roundtrip_holds_for_safe_entries _ (by decide)⟩

/-! Claim C6: the line grammar. -/

/-- The outcome of parsing a line, as described by claim C6: an entry kind,
a task status, and the recorded signifier. -/
structure ParseShape where
  kind : EntryType
  status : Option TaskStatus
  signifier : Option Signifier
deriving DecidableEq, Repr

def classify (e : Entry) : ParseShape := ⟨e.entry_type, e.status, e.signifier⟩

/-- The status table exactly as the claim writes it:
`{' ':open, 'x':complete, '>':migrated, '<':scheduled, '~':cancelled}`. -/
def claimStatusMap (c : Char) : TaskStatus :=
  if c = ' ' then .open_
  else if c = 'x' then .complete
  else if c = '>' then .migrated
  else if c = '<' then .scheduled
  else .cancelled

/-- The claim's grammar read literally, with no treatment of migration-hint
suffixes between signifier consumption and type dispatch (this is the
unamended reading of C6; `- <content>` etc. are the patterns embedded as
`matchTask`/`matchNote`, and `○ <content>` read with a mandatory
separator). -/
def claimLiteralParse (sigs : SigCfg) (line : Str) : Option ParseShape :=
  let l := strip line
  if l.isEmpty || l.head? == some '#' then none
  else
    let hasSig := match l with
      | c :: c2 :: _ => (sigs.any fun p => p.1 == c) && isWs c2
      | _ => false
    let sg := if hasSig then getSignifierFromChar (l.headD ' ') sigs else none
    let l1 := if hasSig then trimLeft l.tail else l
    match matchTask l1 with
    | some (ch, _) => some ⟨.task, some (claimStatusMap ch), sg⟩
    | none =>
      match matchNote l1 with
      | some _ => some ⟨.note, none, sg⟩
      | none => none

/-- The claim's grammar, amended: after the optional signifier is consumed,
a trailing `→<token>` suffix and then a trailing `←<token>` suffix are
stripped from the remainder, and only then is the type dispatched; the
event marker requires no whitespace before its content. -/
def claimGrammarParse (sigs : SigCfg) (line : Str) : Option ParseShape :=
  let l := strip line
  if l.isEmpty || l.head? == some '#' then none
  else
    let hasSig := match l with
      | c :: c2 :: _ => (sigs.any fun p => p.1 == c) && isWs c2
      | _ => false
    let sg := if hasSig then getSignifierFromChar (l.headD ' ') sigs else none
    let l1 := if hasSig then trimLeft l.tail else l
    let l2 := match splitMig '→' l1 with
      | some (rest, _) => rest
      | none => l1
    let l3 := match splitMig '←' l2 with
      | some (rest, _) => rest
      | none => l2
    match matchTask l3 with
    | some (ch, _) => some ⟨.task, some (claimStatusMap ch), sg⟩
    | none =>
      match matchEvent l3 with
      | some _ => some ⟨.event, none, sg⟩
      | none =>
        match matchNote l3 with
        | some _ => some ⟨.note, none, sg⟩
        | none => none

/-- C6 counterexample: for the line "- →x" the claim as stated prescribes a
note (the remainder matches `- <content>` with content "→x"), but
parse_entry strips the migration suffix before dispatch, leaving the bare
marker "-", which matches nothing: no entry is produced. -/
theorem grammar_claim_counterexample :
    claimLiteralParse defaultSignifiersCfg (str "- →x")
      = some ⟨.note, none, none⟩ ∧
    matchNote (strip (str "- →x")) = some (str "→x") ∧
    parseEntry defaultSignifiersCfg (str "- →x") 0 = none := by
  refine ⟨by decide, by decide, by decide⟩

theorem statusMap_agree (ch : Char) (h : (statusOfChar ch).isSome = true) :
    some (claimStatusMap ch) = some ((statusOfChar ch).getD .open_) := by
  by_cases e1 : ch = ' '
  · subst e1; rfl
  by_cases e2 : ch = 'x'
  · subst e2; rfl
  by_cases e3 : ch = '>'
  · subst e3; rfl
  by_cases e4 : ch = '<'
  · subst e4; rfl
  by_cases e5 : ch = '~'
  · subst e5; rfl
  exfalso
  rw [statusOfChar] at h
  simp only [STATUS_MAP, List.lookup] at h
  rw [show (ch == ' ') = false by simp [e1], show (ch == 'x') = false by simp [e2],
    show (ch == '>') = false by simp [e3], show (ch == '<') = false by simp [e4],
    show (ch == '~') = false by simp [e5]] at h
  simp at h

theorem matchTask_status_isSome {l : Str} {ch : Char} {cont : Str}
    (h : matchTask l = some (ch, cont)) : (statusOfChar ch).isSome = true := by
  rw [matchTask.eq_def] at h
  repeat' split at h
  all_goals
    first
    | (simp only [] at h
       split at h
       · exact absurd h (by simp)
       · simp only [Option.some.injEq, Prod.mk.injEq] at h
         obtain ⟨rfl, -⟩ := h
         assumption)
    | exact absurd h (by simp)

theorem dispatch_classify (raw : Str) (n : Nat) (sg : Option Signifier)
    (mt mf : Option Str) (l : Str) :
    (dispatchStage raw n sg mt mf l).map classify =
      (match matchTask l with
       | some (ch, _) => some ⟨.task, some (claimStatusMap ch), sg⟩
       | none =>
         match matchEvent l with
         | some _ => some ⟨.event, none, sg⟩
         | none =>
           match matchNote l with
           | some _ => some ⟨.note, none, sg⟩
           | none => none) := by
  rw [dispatchStage]
  cases hmt : matchTask l with
  | some pr =>
    obtain ⟨ch, cont⟩ := pr
    have hch := matchTask_status_isSome hmt
    have hst := statusMap_agree ch hch
    simp only [Option.some.injEq] at hst
    simp [classify, hst]
  | none =>
    cases hme : matchEvent l with
    | some cont => simp [classify]
    | none =>
      cases hmn : matchNote l with
      | some cont => simp [classify]
      | none => simp

theorem sigStage_eq_claim (sigs : SigCfg) (l : Str) :
    sigStage sigs l =
      (if (match l with
           | c :: c2 :: _ => (sigs.any fun p => p.1 == c) && isWs c2
           | _ => false) = true
       then getSignifierFromChar (l.headD ' ') sigs else none,
       if (match l with
           | c :: c2 :: _ => (sigs.any fun p => p.1 == c) && isWs c2
           | _ => false) = true
       then trimLeft l.tail else l) := by
  cases l with
  | nil => rfl
  | cons a t =>
    cases t with
    | nil => rfl
    | cons b u =>
      rw [sigStage]
      by_cases hg : ((sigs.any fun p => p.1 == a) && isWs b) = true
      · simp [hg]
      · simp [hg]

theorem migStage_snd (l : Str) :
    (migStage l).2 =
      (match splitMig '←'
          (match splitMig '→' l with
           | some (rest, _) => rest
           | none => l) with
       | some (rest, _) => rest
       | none =>
         match splitMig '→' l with
         | some (rest, _) => rest
         | none => l) := by
  rw [migStage]
  cases h1 : splitMig '→' l with
  | some pr1 =>
    obtain ⟨r1, t1⟩ := pr1
    cases h2 : splitMig '←' r1 with
    | some pr2 =>
      obtain ⟨r2, t2⟩ := pr2
      simp [h1, h2]
    | none => simp [h1, h2]
  | none =>
    cases h2 : splitMig '←' l with
    | some pr2 =>
      obtain ⟨r2, t2⟩ := pr2
      simp [h1, h2]
    | none => simp [h1, h2]

/-- C6 amended: for every input line, every configured signifier map and
every line number, parse_entry realises exactly the claim's grammar with
two amendments (migration-hint suffixes are stripped from the remainder
before type dispatch, and the event marker requires no following
whitespace): after trimming, an empty or '#'-headed line yields nothing;
one configured signifier character immediately followed by whitespace is
consumed and recorded; the remainder, after suffix stripping, dispatches
to task (with the claimed status table), event, or note, and yields no
entry otherwise — in particular a bare signifier yields no entry. -/
theorem parse_matches_claim_grammar (sigs : SigCfg) (line : Str) (n : Nat) :
    (parseEntry sigs line n).map classify = claimGrammarParse sigs line := by
  rw [parseEntry, claimGrammarParse]
  cases hl : strip line with
  | nil => simp
  | cons a t =>
    by_cases ha : a = '#'
    · subst ha
      simp
    · have hhash : (((a :: t : Str).head? == some '#')) = false := by
        simp [ha]
      have hemp : (a :: t : Str).isEmpty = false := rfl
      simp only [hemp, hhash, Bool.false_or, Bool.false_eq_true, if_false]
      rw [sigStage_eq_claim, dispatch_classify, migStage_snd]

/-! Store-level helper lemmas for the indexer claims. -/

theorem runOps_append (s : Store) (a b : List Op) :
    runOps s (a ++ b) = runOps (runOps s a) b := by
  rw [runOps, runOps, runOps, List.foldl_append]

theorem runOps_cons (s : Store) (op : Op) (ops : List Op) :
    runOps s (op :: ops) = runOps (applyOp s op) ops := rfl

theorem runOps_singleton (s : Store) (op : Op) : runOps s [op] = applyOp s op := rfl

theorem entriesFor_clearFile_self (p : Str) (s : Store) :
    entriesFor p (applyOp s (.clearFile p)) = [] := by
  rw [entriesFor, applyOp, List.filter_filter]
  apply List.filter_eq_nil_iff.mpr
  intro r _
  by_cases hr : r.source_file = p
  · simp [hr]
  · simp [hr]

theorem entriesFor_clearFile_other (p q : Str) (hpq : q ≠ p) (s : Store) :
    entriesFor p (applyOp s (.clearFile q)) = entriesFor p s := by
  rw [entriesFor, applyOp, List.filter_filter, entriesFor]
  apply List.filter_congr
  intro r _
  by_cases hr : r.source_file = p
  · simp [hr, Ne.symm hpq]
  · simp [hr]

theorem entriesFor_insert (p : Str) (r : Rec) (s : Store) :
    entriesFor p (applyOp s (.insert r)) =
      entriesFor p s ++ (if r.source_file = p then [r] else []) := by
  rw [entriesFor, applyOp, List.filter_append, entriesFor]
  by_cases hr : r.source_file = p
  · simp [hr]
  · simp [hr]

theorem entries_applyOp_setHash (p h : Str) (s : Store) :
    (applyOp s (.setHash p h)).entries = s.entries := rfl

theorem entries_applyOp_deleteHash (p : Str) (s : Store) :
    (applyOp s (.deleteHash p)).entries = s.entries := rfl

theorem entriesFor_setHash (p q h : Str) (s : Store) :
    entriesFor p (applyOp s (.setHash q h)) = entriesFor p s := rfl

theorem entriesFor_deleteHash (p q : Str) (s : Store) :
    entriesFor p (applyOp s (.deleteHash q)) = entriesFor p s := rfl

theorem getFileHash_deleteHash_self (p : Str) (s : Store) :
    getFileHash (applyOp s (.deleteHash p)) p = none := by
  rw [getFileHash, applyOp]
  rw [List.find?_eq_none.mpr]
  · rfl
  · intro x hx
    have := (List.mem_filter.mp hx).2
    simp only [bne_iff_ne, ne_eq] at this
    simp [this]

theorem find?_key_append_self (p h : Str) (l : List (Str × Str))
    (hl : ∀ x ∈ l, x.1 ≠ p) :
    (l ++ [(p, h)]).find? (fun x => x.1 == p) = some (p, h) := by
  induction l with
  | nil => simp [List.find?]
  | cons a t ih =>
    rw [List.cons_append,
      List.find?_cons_of_neg _ (by simp [hl a (List.mem_cons_self a t)])]
    exact ih (fun x hx => hl x (List.mem_cons_of_mem a hx))

theorem getFileHash_setHash_self (p h : Str) (s : Store) :
    getFileHash (applyOp s (.setHash p h)) p = some h := by
  rw [getFileHash,
    show (applyOp s (.setHash p h)).hashes
      = s.hashes.filter (fun x => x.1 != p) ++ [(p, h)] from rfl,
    find?_key_append_self p h _ ?_]
  · rfl
  · intro x hx
    have := (List.mem_filter.mp hx).2
    simpa using this

theorem find?_key_filter_ne (p q : Str) (hpq : p ≠ q) (l : List (Str × Str)) :
    (l.filter (fun x => x.1 != q)).find? (fun x => x.1 == p)
      = l.find? (fun x => x.1 == p) := by
  induction l with
  | nil => rfl
  | cons a t ih =>
    rw [List.filter_cons]
    by_cases haq : a.1 = q
    · rw [show (a.1 != q) = false by simp [haq], if_neg (by simp)]
      rw [List.find?_cons, show (a.1 == p) = false by simp [haq, Ne.symm hpq]]
      exact ih
    · rw [show (a.1 != q) = true by simp [haq], if_pos rfl]
      rw [List.find?_cons, List.find?_cons]
      cases hap : (a.1 == p) with
      | true => rfl
      | false => exact ih

theorem find?_key_filter_append_ne (p q h : Str) (hpq : p ≠ q) (l : List (Str × Str)) :
    (l.filter (fun x => x.1 != q) ++ [(q, h)]).find? (fun x => x.1 == p)
      = l.find? (fun x => x.1 == p) := by
  induction l with
  | nil =>
    simp only [List.filter_nil, List.nil_append]
    rw [List.find?_cons, show ((q, h).1 == p) = false by simp [Ne.symm hpq]]
  | cons a t ih =>
    rw [List.filter_cons]
    by_cases haq : a.1 = q
    · rw [show (a.1 != q) = false by simp [haq], if_neg (by simp)]
      rw [List.find?_cons, show (a.1 == p) = false by simp [haq, Ne.symm hpq]]
      exact ih
    · rw [show (a.1 != q) = true by simp [haq], if_pos rfl, List.cons_append]
      rw [List.find?_cons, List.find?_cons]
      cases hap : (a.1 == p) with
      | true => rfl
      | false => exact ih

theorem getFileHash_setHash_other (p q h : Str) (hpq : p ≠ q) (s : Store) :
    getFileHash (applyOp s (.setHash q h)) p = getFileHash s p := by
  rw [getFileHash, getFileHash,
    show (applyOp s (.setHash q h)).hashes
      = s.hashes.filter (fun x => x.1 != q) ++ [(q, h)] from rfl,
    find?_key_filter_append_ne p q h hpq]

theorem getFileHash_deleteHash_other (p q : Str) (hpq : p ≠ q) (s : Store) :
    getFileHash (applyOp s (.deleteHash q)) p = getFileHash s p := by
  rw [getFileHash, getFileHash,
    show (applyOp s (.deleteHash q)).hashes
      = s.hashes.filter (fun x => x.1 != q) from rfl,
    find?_key_filter_ne p q hpq]

theorem getFileHash_clearFile (p q : Str) (s : Store) :
    getFileHash (applyOp s (.clearFile q)) p = getFileHash s p := rfl

theorem getFileHash_insert (p : Str) (r : Rec) (s : Store) :
    getFileHash (applyOp s (.insert r)) p = getFileHash s p := rfl

theorem recsList_sources (g : Hasher) (rel : Str) (ctx : Context) :
    ∀ (es : List Entry) (s : Store) (r : Rec),
      r ∈ recsList g rel ctx s es → r.source_file = rel := by
  intro es
  induction es with
  | nil => intro s r hr; simp [recsList] at hr
  | cons e es' ih =>
    intro s r hr
    rw [recsList] at hr
    rcases List.mem_cons.mp hr with h | h
    · rw [h]; rfl
    · exact ih _ r h

theorem entriesFor_insert_run (p : Str) :
    ∀ (rs : List Rec) (s : Store), (∀ r ∈ rs, r.source_file = p) →
      entriesFor p (runOps s (rs.map Op.insert)) = entriesFor p s ++ rs := by
  intro rs
  induction rs with
  | nil => intro s _; simp [runOps]
  | cons r rs' ih =>
    intro s hsrc
    rw [List.map_cons, runOps_cons, ih _ (fun x hx => hsrc x (List.mem_cons_of_mem r hx)),
      entriesFor_insert, if_pos (hsrc r (List.mem_cons_self r rs'))]
    simp

theorem entriesFor_insert_run_other (p q : Str) (hpq : p ≠ q) :
    ∀ (rs : List Rec) (s : Store), (∀ r ∈ rs, r.source_file = q) →
      entriesFor p (runOps s (rs.map Op.insert)) = entriesFor p s := by
  intro rs
  induction rs with
  | nil => intro s _; simp [runOps]
  | cons r rs' ih =>
    intro s hsrc
    rw [List.map_cons, runOps_cons, ih _ (fun x hx => hsrc x (List.mem_cons_of_mem r hx)),
      entriesFor_insert, if_neg (by rw [hsrc r (List.mem_cons_self r rs')]; exact Ne.symm hpq)]
    simp

theorem getFileHash_insert_run (p : Str) (rs : List Rec) (s : Store) :
    getFileHash (runOps s (rs.map Op.insert)) p = getFileHash s p := by
  induction rs generalizing s with
  | nil => rfl
  | cons r rs' ih => rw [List.map_cons, runOps_cons, ih, getFileHash_insert]

/-! Claims C8, C7, C4. -/

/-- A store holding one entry record and a hash record for the daily file
daily/2024-13-40.md, whose name matches the daily pattern but is not a
valid calendar date. -/
def c8Store : Store :=
  ⟨[{ entry_ref := str "old", source_file := str "daily/2024-13-40.md",
      line_number := 1, raw_line := str "- x", entry_type := .note,
      status := none, signifier := none, content := str "x",
      entry_date := none, collection := none, month := none,
      migrated_to := none, migrated_from := none }],
   [(str "daily/2024-13-40.md", str "stale")]⟩

/-- Counterexample to C8 as stated: reindex_file on an EXISTING file does
not always clear, reparse, reinsert and set the file hash.  For the
existing file daily/2024-13-40.md — whose name matches the daily pattern
but is not a valid date — reindex_file commits clear_file_entries and
then determine_context raises: the run does not complete, the file's old
record is gone with nothing reinserted, and its hash record is left at
the stale value, not updated to the file's current hash. -/
theorem reindex_file_existing_can_raise :
    entriesFor (str "daily/2024-13-40.md") c8Store
      = [{ entry_ref := str "old", source_file := str "daily/2024-13-40.md",
           line_number := 1, raw_line := str "- x", entry_type := .note,
           status := none, signifier := none, content := str "x",
           entry_date := none, collection := none, month := none,
           migrated_to := none, migrated_from := none }] ∧
    (reindexFile (fun l => l) (fun l => 'H' :: l) parseDefaultSigs
      (str "daily/2024-13-40.md") (some (str "- a")) c8Store).2 = false ∧
    entriesFor (str "daily/2024-13-40.md")
      (reindexFile (fun l => l) (fun l => 'H' :: l) parseDefaultSigs
        (str "daily/2024-13-40.md") (some (str "- a")) c8Store).1 = [] ∧
    getFileHash
      (reindexFile (fun l => l) (fun l => 'H' :: l) parseDefaultSigs
        (str "daily/2024-13-40.md") (some (str "- a")) c8Store).1
      (str "daily/2024-13-40.md") = some (str "stale") ∧
    some (str "stale") ≠ some ('H' :: str "- a") := by
  exact ⟨rfl, rfl, rfl, rfl, by decide⟩

/-- C8, amended: reindex_file on a missing file is a deletion signal and
not an error — unconditionally, it removes all entry records for the
path, deletes its file-hash record, and completes normally (the
completion flag models "does not raise").  When the file exists and its
context resolves, it clears, reparses, reinserts the parse-derived
records, and then sets the file hash.  When the file exists but its
context does not resolve (a daily-shaped name that is not a valid date),
it clears the file's entries and then raises: nothing is reinserted and
the file's hash record is left unchanged. -/
theorem reindex_file_missing_is_deletion (g h : Hasher) (sigs : SigCfg) (s : Store)
    (p : Str) :
    ((reindexFile g h sigs p none s).2 = true ∧
      entriesFor p (reindexFile g h sigs p none s).1 = [] ∧
      getFileHash (reindexFile g h sigs p none s).1 p = none) ∧
    (∀ (c : Str) (ctx : Context), determineContextE p = .ok ctx →
      (reindexFile g h sigs p (some c) s).2 = true ∧
      entriesFor p (reindexFile g h sigs p (some c) s).1
        = recsList g p ctx (applyOp s (.clearFile p)) (parseFileContent sigs c) ∧
      getFileHash (reindexFile g h sigs p (some c) s).1 p = some (h c)) ∧
    (∀ (c : Str) (e : Unit), determineContextE p = .error e →
      (reindexFile g h sigs p (some c) s).2 = false ∧
      entriesFor p (reindexFile g h sigs p (some c) s).1 = [] ∧
      getFileHash (reindexFile g h sigs p (some c) s).1 p = getFileHash s p) := by
  refine ⟨⟨rfl, ?_, ?_⟩, ?_, ?_⟩
  · rw [show (reindexFile g h sigs p none s).1
        = applyOp (applyOp s (.clearFile p)) (.deleteHash p) from rfl,
      entriesFor_deleteHash, entriesFor_clearFile_self]
  · rw [show (reindexFile g h sigs p none s).1
        = applyOp (applyOp s (.clearFile p)) (.deleteHash p) from rfl,
      getFileHash_deleteHash_self]
  · intro c ctx hctx
    have hidx : indexFileTr g h sigs (applyOp s (.clearFile p)) p c
        = ((recsList g p ctx (applyOp s (.clearFile p)) (parseFileContent sigs c)).map
            Op.insert ++ [Op.setHash p (h c)], true) := by
      rw [indexFileTr, hctx]
    have htr : reindexFileTr g h sigs s p (some c)
        = (Op.clearFile p ::
            ((recsList g p ctx (applyOp s (.clearFile p)) (parseFileContent sigs c)).map
              Op.insert ++ [Op.setHash p (h c)]) ++ [Op.setHash p (h c)], true) := by
      rw [reindexFileTr, hidx]
      simp
    have hrf : reindexFile g h sigs p (some c) s
        = (runOps s (Op.clearFile p ::
            ((recsList g p ctx (applyOp s (.clearFile p)) (parseFileContent sigs c)).map
              Op.insert ++ [Op.setHash p (h c)]) ++ [Op.setHash p (h c)]), true) := by
      rw [reindexFile, htr]
    refine ⟨by rw [hrf], ?_, ?_⟩
    · rw [hrf]
      simp only [List.cons_append]
      rw [runOps_cons, runOps_append, runOps_append, runOps_singleton, entriesFor_setHash,
        runOps_singleton, entriesFor_setHash,
        entriesFor_insert_run p _ _ (recsList_sources g p ctx _ _),
        entriesFor_clearFile_self]
      rfl
    · rw [hrf]
      rw [runOps_append, runOps_singleton, getFileHash_setHash_self]
  · intro c e herr
    have hidx : indexFileTr g h sigs (applyOp s (.clearFile p)) p c = ([], false) := by
      rw [indexFileTr, herr]
    have htr : reindexFileTr g h sigs s p (some c) = ([Op.clearFile p], false) := by
      rw [reindexFileTr, hidx]
      simp
    have hrf : reindexFile g h sigs p (some c) s
        = (runOps s [Op.clearFile p], false) := by
      rw [reindexFile, htr]
    refine ⟨by rw [hrf], ?_, ?_⟩
    · rw [hrf]
      show entriesFor p (runOps s [Op.clearFile p]) = []
      rw [runOps_singleton, entriesFor_clearFile_self]
    · rw [hrf]
      show getFileHash (runOps s [Op.clearFile p]) p = getFileHash s p
      rw [runOps_singleton, getFileHash_clearFile]

/-- Witness for C8 at concrete inputs exercising all three branches: a
missing file with a stored hash, an existing collection file whose
context resolves, and an existing daily-shaped file whose date is
invalid. -/
theorem reindex_file_witness :
    (entriesFor (str "notes.md")
        (reindexFile (fun l => l) (fun l => 'H' :: l) parseDefaultSigs
          (str "notes.md") none ⟨[], [(str "notes.md", str "x")]⟩).1 = [] ∧
      getFileHash
        (reindexFile (fun l => l) (fun l => 'H' :: l) parseDefaultSigs
          (str "notes.md") none ⟨[], [(str "notes.md", str "x")]⟩).1
        (str "notes.md") = none) ∧
    (determineContextE (str "notes.md") = .ok
        { file_type := .collection, file_path := str "notes.md" } ∧
      getFileHash
        (reindexFile (fun l => l) (fun l => 'H' :: l) parseDefaultSigs
          (str "notes.md") (some (str "- a")) ⟨[], []⟩).1
        (str "notes.md") = some ('H' :: str "- a")) ∧
    (determineContextE (str "daily/2024-13-40.md") = .error () ∧
      (reindexFile (fun l => l) (fun l => 'H' :: l) parseDefaultSigs
        (str "daily/2024-13-40.md") (some (str "- a")) c8Store).2 = false) := by
  have h1 := reindex_file_missing_is_deletion (fun l => l) (fun l => 'H' :: l)
    parseDefaultSigs ⟨[], [(str "notes.md", str "x")]⟩ (str "notes.md")
  have h2 := reindex_file_missing_is_deletion (fun l => l) (fun l => 'H' :: l)
    parseDefaultSigs ⟨[], []⟩ (str "notes.md")
  have h3 := reindex_file_missing_is_deletion (fun l => l) (fun l => 'H' :: l)
    parseDefaultSigs c8Store (str "daily/2024-13-40.md")
  exact ⟨⟨h1.1.2.1, h1.1.2.2⟩,
    ⟨by rfl, (h2.2.1 (str "- a")
      { file_type := .collection, file_path := str "notes.md" } (by rfl)).2.2⟩,
    ⟨by rfl, (h3.2.2 (str "- a") () (by rfl)).1⟩⟩

/-- C7: the ref chosen by _index_file for an entry is the generated ref,
regenerated exactly once — with the line number appended to the context
key — when the first ref is already present in the store; when the
regenerated ref collides as well, it is still used with no further
regeneration.  The head of the per-file insertion list is the record
carrying that ref, i.e. this is what is about to be persisted. -/
theorem ref_collision_single_retry (g : Hasher) (s : Store) (rel : Str) (ctx : Context)
    (e : Entry) (es : List Entry) :
    ((mkRec g s rel ctx e).entry_ref
      = if (getEntryByRef s (generateEntryRef g rel e.content (ctxDateStr ctx))).isSome
        then generateEntryRef g rel e.content
          (ctxDateStr ctx ++ ':' :: natStr e.line_number)
        else generateEntryRef g rel e.content (ctxDateStr ctx)) ∧
    ((getEntryByRef s (generateEntryRef g rel e.content (ctxDateStr ctx))).isSome = true →
      (getEntryByRef s (generateEntryRef g rel e.content
        (ctxDateStr ctx ++ ':' :: natStr e.line_number))).isSome = true →
      (mkRec g s rel ctx e).entry_ref
        = generateEntryRef g rel e.content
            (ctxDateStr ctx ++ ':' :: natStr e.line_number)) ∧
    (recsList g rel ctx s (e :: es)).head? = some (mkRec g s rel ctx e) := by
  refine ⟨rfl, ?_, ?_⟩
  · intro h1 _
    show chooseRef g s rel e (ctxDateStr ctx) = _
    rw [chooseRef, if_pos h1]
  · rw [recsList]
    rfl

/-- A store in which both the plain and the line-qualified ref for the
entry "x" of file "a.md" are already taken (under the identity hash). -/
def refCollisionStore : Store :=
  ⟨[{ entry_ref := str "a.md:x:", source_file := str "b.md", line_number := 1,
      raw_line := [], entry_type := .note, status := none, signifier := none,
      content := str "x", entry_date := none, collection := none, month := none,
      migrated_to := none, migrated_from := none },
    { entry_ref := str "a.md:x::1", source_file := str "b.md", line_number := 2,
      raw_line := [], entry_type := .note, status := none, signifier := none,
      content := str "x", entry_date := none, collection := none, month := none,
      migrated_to := none, migrated_from := none }], []⟩

/-- Witness for C7 at a concrete double collision (the identity-like hash
makes both the first and the retried ref collide with records already in
the store). -/
theorem ref_collision_witness :
    (getEntryByRef refCollisionStore (generateEntryRef (fun l => l) (str "a.md")
      (str "x") (ctxDateStr ⟨.collection, str "a.md", none, none, none, none⟩))).isSome
      = true ∧
    (getEntryByRef refCollisionStore (generateEntryRef (fun l => l) (str "a.md")
      (str "x") (ctxDateStr ⟨.collection, str "a.md", none, none, none, none⟩
        ++ ':' :: natStr 1))).isSome = true ∧
    (mkRec (fun l => l) refCollisionStore (str "a.md")
        ⟨.collection, str "a.md", none, none, none, none⟩
        { entry_type := .note, content := str "x", raw_line := str "- x",
          line_number := 1 }).entry_ref
      = str "a.md:x::1" := by
  refine ⟨by decide, by decide, ?_⟩
  have h := ref_collision_single_retry (fun l => l) refCollisionStore (str "a.md")
    ⟨.collection, str "a.md", none, none, none, none⟩
    { entry_type := .note, content := str "x", raw_line := str "- x", line_number := 1 }
    [] |>.2.1 (by decide) (by decide)
  rw [h]
  decide

/-- C4: full_reindex is idempotent — it first wipes both tables, so its
result is independent of the starting store, and running it twice
back-to-back produces the identical store, completion flag and count —
and on completion it returns the number of markdown files walked. -/
theorem full_reindex_idempotent (g h : Hasher) (sigs : SigCfg)
    (files : List (Str × Str)) (s : Store) :
    fullReindex g h sigs files (fullReindex g h sigs files s).1
      = fullReindex g h sigs files s ∧
    ((fullReindex g h sigs files s).2.1 = true →
      (fullReindex g h sigs files s).2.2 = files.length) := by
  constructor
  · rfl
  · intro hok
    have haux : ∀ (fs : List (Str × Str)) (s0 : Store),
        (fullFilesTr g h sigs s0 fs).2.1 = true →
        (fullFilesTr g h sigs s0 fs).2.2 = fs.length := by
      intro fs
      induction fs with
      | nil => intro s0 _; rfl
      | cons f fs' ih =>
        intro s0 hok0
        obtain ⟨p, c⟩ := f
        rw [fullFilesTr] at hok0 ⊢
        by_cases ht : (indexFileTr g h sigs s0 p c).2 = true
        · simp only [ht, if_true] at hok0 ⊢
          rw [List.length_cons, ih _ hok0]
        · simp only [Bool.not_eq_true] at ht
          simp only [ht, Bool.false_eq_true, if_false] at hok0
    exact haux files _ hok

/-- Witness for C4 at a concrete two-file journal. -/
theorem full_reindex_witness :
    (fullReindex (fun l => l) (fun l => 'H' :: l) parseDefaultSigs
      [(str "a.md", str "- x\n- y"), (str "daily/2024-12-03.md", str "[ ] t")]
      ⟨[], []⟩).2.1 = true ∧
    (fullReindex (fun l => l) (fun l => 'H' :: l) parseDefaultSigs
      [(str "a.md", str "- x\n- y"), (str "daily/2024-12-03.md", str "[ ] t")]
      ⟨[], []⟩).2.2 = 2 := by
  refine ⟨by decide, ?_⟩
  have h := (full_reindex_idempotent (fun l => l) (fun l => 'H' :: l) parseDefaultSigs
    [(str "a.md", str "- x\n- y"), (str "daily/2024-12-03.md", str "[ ] t")]
    ⟨[], []⟩).2 (by decide)
  rw [h]
  rfl

/-! Claim C2: per-statement commits, prefix semantics of a failure. -/

/-- The records submitted by the insert statements of a trace, in order. -/
def insertsOf (ops : List Op) : List Rec :=
  ops.filterMap fun op => match op with
    | .insert r => some r
    | _ => none

theorem insertsOf_cons_clearFile (p : Str) (ops : List Op) :
    insertsOf (Op.clearFile p :: ops) = insertsOf ops := by
  rw [insertsOf, insertsOf, List.filterMap_cons]

theorem insertsOf_append (a b : List Op) :
    insertsOf (a ++ b) = insertsOf a ++ insertsOf b := by
  rw [insertsOf, insertsOf, insertsOf, List.filterMap_append]

theorem insertsOf_map_insert (rs : List Rec) : insertsOf (rs.map Op.insert) = rs := by
  induction rs with
  | nil => rfl
  | cons r t ih =>
    rw [List.map_cons, insertsOf, List.filterMap_cons]
    show r :: insertsOf (t.map Op.insert) = r :: t
    rw [ih]

theorem insertsOf_setHashes (p : Str) (h1 h2 : Str) :
    insertsOf [Op.setHash p h1, Op.setHash p h2] = [] := rfl

/-- Statements that do not touch the entries table. -/
def entryNeutral : Op → Bool
  | .setHash _ _ => true
  | .deleteHash _ => true
  | _ => false

theorem entries_runOps_neutral :
    ∀ (ops : List Op) (s : Store), (∀ op ∈ ops, entryNeutral op = true) →
      (runOps s ops).entries = s.entries := by
  intro ops
  induction ops with
  | nil => intro s _; rfl
  | cons o os ih =>
    intro s hall
    rw [runOps_cons, ih _ (fun x hx => hall x (List.mem_cons_of_mem o hx))]
    have ho := hall o (List.mem_cons_self o os)
    cases o with
    | setHash q hh => rfl
    | deleteHash q => rfl
    | clearAll => simp [entryNeutral] at ho
    | clearFile q => simp [entryNeutral] at ho
    | insert r => simp [entryNeutral] at ho

theorem entriesFor_take_inserts (p : Str) :
    ∀ (rs : List Rec) (tail : List Op) (k : Nat) (s0 : Store),
      (∀ r ∈ rs, r.source_file = p) → (∀ op ∈ tail, entryNeutral op = true) →
      entriesFor p (runOps s0 ((rs.map Op.insert ++ tail).take k))
        = entriesFor p s0 ++ rs.take k := by
  intro rs
  induction rs with
  | nil =>
    intro tail k s0 _ hneutral
    simp only [List.map_nil, List.nil_append, List.take_nil, List.append_nil]
    rw [entriesFor, entries_runOps_neutral _ _
      (fun op hop => hneutral op (List.mem_of_mem_take hop)), entriesFor]
  | cons r rs' ih =>
    intro tail k s0 hsrc hneutral
    cases k with
    | zero => simp [runOps]
    | succ k' =>
      rw [List.map_cons, List.cons_append, List.take_succ_cons, runOps_cons,
        ih tail k' _ (fun x hx => hsrc x (List.mem_cons_of_mem r hx)) hneutral,
        entriesFor_insert, if_pos (hsrc r (List.mem_cons_self r rs')),
        List.take_succ_cons]
      simp

/-- C2 amended: a file's clear+reinsert is not one transaction — each
statement commits individually (`Database.cursor` commits per call) — so
a failure that cuts the trace after `k+1` statements leaves the file's
records equal to exactly the first `k` newly inserted records: the old
records are gone as soon as the clear commits, and a proper prefix of the
new records may remain (never a mix of old and new, and all-or-nothing
only in the degenerate cases `k = 0` records inserted or a completed
trace). -/
theorem reindex_file_failure_leaves_prefix (g h : Hasher) (sigs : SigCfg)
    (s : Store) (p c : Str) (k : Nat) :
    entriesFor p (runOps s (((reindexFileTr g h sigs s p (some c)).1).take (k + 1)))
      = (insertsOf (reindexFileTr g h sigs s p (some c)).1).take k := by
  cases hctx : determineContextE p with
  | error e =>
    have htr : reindexFileTr g h sigs s p (some c) = ([Op.clearFile p], false) := by
      rw [reindexFileTr, indexFileTr, hctx]
      simp
    rw [htr]
    have htake : ([Op.clearFile p] : List Op).take (k + 1) = [Op.clearFile p] := by
      cases k <;> rfl
    rw [htake, runOps_singleton, entriesFor_clearFile_self]
    simp [insertsOf]
  | ok ctx =>
    have hidx : indexFileTr g h sigs (applyOp s (.clearFile p)) p c
        = ((recsList g p ctx (applyOp s (.clearFile p)) (parseFileContent sigs c)).map
            Op.insert ++ [Op.setHash p (h c)], true) := by
      rw [indexFileTr, hctx]
    have htr : reindexFileTr g h sigs s p (some c)
        = (Op.clearFile p ::
            ((recsList g p ctx (applyOp s (.clearFile p)) (parseFileContent sigs c)).map
              Op.insert ++ [Op.setHash p (h c), Op.setHash p (h c)]), true) := by
      rw [reindexFileTr, hidx]
      simp
    rw [htr]
    rw [List.take_succ_cons, runOps_cons,
      entriesFor_take_inserts p _ _ k _ (recsList_sources g p ctx _ _)
        (by intro op hop
            rcases List.mem_cons.mp hop with h1 | h1
            · rw [h1]; rfl
            · rcases List.mem_cons.mp h1 with h2 | h2
              · rw [h2]; rfl
              · simp at h2),
      entriesFor_clearFile_self]
    rw [insertsOf_cons_clearFile, insertsOf_append, insertsOf_map_insert,
      insertsOf_setHashes, List.append_nil, List.nil_append]

/-- A store holding one pre-existing record for "a.md" (and its stale
hash), used to exhibit the partial state a mid-reindex failure leaves. -/
def c2Store : Store :=
  ⟨[{ entry_ref := str "oldref", source_file := str "a.md", line_number := 1,
      raw_line := str "- old", entry_type := .note, status := none, signifier := none,
      content := str "old", entry_date := none, collection := none, month := none,
      migrated_to := none, migrated_from := none }], [(str "a.md", str "oldhash")]⟩

/-- C2 counterexample: reindexing "a.md" (two new entries) and failing
after the second committed statement (clear + first insert) leaves the
store with exactly one new record for the file — neither the records it
had before the reindex began nor the full new set, contradicting
all-or-nothing replacement. -/
theorem clear_reinsert_not_atomic :
    entriesFor (str "a.md")
      (runOps c2Store (((reindexFileTr (fun l => l) (fun l => 'H' :: l)
        parseDefaultSigs c2Store (str "a.md") (some (str "- x\n- y"))).1).take 2))
      ≠ entriesFor (str "a.md") c2Store ∧
    entriesFor (str "a.md")
      (runOps c2Store (((reindexFileTr (fun l => l) (fun l => 'H' :: l)
        parseDefaultSigs c2Store (str "a.md") (some (str "- x\n- y"))).1).take 2))
      ≠ entriesFor (str "a.md")
        (runOps c2Store ((reindexFileTr (fun l => l) (fun l => 'H' :: l)
          parseDefaultSigs c2Store (str "a.md") (some (str "- x\n- y"))).1)) := by
  refine ⟨by decide, by decide⟩

/-! Claim C5: locality of incremental reindexing. -/

theorem incrFilesTr_cons_unchanged (g h : Hasher) (sigs : SigCfg) (s : Store)
    (p c : Str) (fs : List (Str × Str)) (hcond : getFileHash s p = some (h c)) :
    incrFilesTr g h sigs s ((p, c) :: fs) = incrFilesTr g h sigs s fs := by
  rw [incrFilesTr]
  simp only [hcond]
  rw [if_neg (by simp)]

theorem incrFilesTr_cons_changed (g h : Hasher) (sigs : SigCfg) (s : Store)
    (p c : Str) (fs : List (Str × Str)) (hcond : getFileHash s p ≠ some (h c))
    (ctx : Context) (hctx : determineContextE p = .ok ctx) :
    incrFilesTr g h sigs s ((p, c) :: fs)
      = (Op.clearFile p ::
          ((recsList g p ctx (applyOp s (.clearFile p)) (parseFileContent sigs c)).map
            Op.insert ++ [Op.setHash p (h c)])
          ++ Op.setHash p (h c) ::
            (incrFilesTr g h sigs
              (applyOp (runOps (applyOp s (.clearFile p))
                ((recsList g p ctx (applyOp s (.clearFile p))
                  (parseFileContent sigs c)).map Op.insert ++ [Op.setHash p (h c)]))
                (.setHash p (h c))) fs).1,
         (incrFilesTr g h sigs
           (applyOp (runOps (applyOp s (.clearFile p))
             ((recsList g p ctx (applyOp s (.clearFile p))
               (parseFileContent sigs c)).map Op.insert ++ [Op.setHash p (h c)]))
             (.setHash p (h c))) fs).2.1,
         (incrFilesTr g h sigs
           (applyOp (runOps (applyOp s (.clearFile p))
             ((recsList g p ctx (applyOp s (.clearFile p))
               (parseFileContent sigs c)).map Op.insert ++ [Op.setHash p (h c)]))
             (.setHash p (h c))) fs).2.2 + 1) := by
  have hidx : indexFileTr g h sigs (applyOp s (.clearFile p)) p c
      = ((recsList g p ctx (applyOp s (.clearFile p)) (parseFileContent sigs c)).map
          Op.insert ++ [Op.setHash p (h c)], true) := by
    rw [indexFileTr, hctx]
  rw [incrFilesTr]
  simp only [hidx]
  rw [if_pos hcond]
  simp

/-- C5: for two files A and B both indexed, with only A's content changed
(its stored hash no longer matches) and B unchanged, incremental_reindex
replaces A's records with the fresh parse-derived records while B's entry
records — refs included — and B's hash record are untouched. -/
theorem incremental_reindex_locality (g h : Hasher) (sigs : SigCfg)
    (sE : List Rec) (pa pb ca cb hA : Str) (ctxa : Context)
    (hne : pa ≠ pb)
    (hctx : determineContextE pa = .ok ctxa)
    (hchanged : hA ≠ h ca) :
    entriesFor pb (incrementalReindex g h sigs [(pa, ca), (pb, cb)]
        ⟨sE, [(pa, hA), (pb, h cb)]⟩).1
      = entriesFor pb ⟨sE, [(pa, hA), (pb, h cb)]⟩ ∧
    getFileHash (incrementalReindex g h sigs [(pa, ca), (pb, cb)]
        ⟨sE, [(pa, hA), (pb, h cb)]⟩).1 pb
      = getFileHash ⟨sE, [(pa, hA), (pb, h cb)]⟩ pb ∧
    entriesFor pa (incrementalReindex g h sigs [(pa, ca), (pb, cb)]
        ⟨sE, [(pa, hA), (pb, h cb)]⟩).1
      = recsList g pa ctxa
          (applyOp ⟨sE, [(pa, hA), (pb, h cb)]⟩ (.clearFile pa))
          (parseFileContent sigs ca) := by
  set s : Store := ⟨sE, [(pa, hA), (pb, h cb)]⟩ with hs
  set recsA : List Rec :=
    recsList g pa ctxa (applyOp s (.clearFile pa)) (parseFileContent sigs ca) with hrecsA
  have hgfa : getFileHash s pa = some hA := by
    rw [hs, getFileHash]
    rw [List.find?_cons_of_pos _ (by simp)]
    rfl
  have hcond : getFileHash s pa ≠ some (h ca) := by
    rw [hgfa]
    intro heq
    exact hchanged (Option.some.inj heq)
  -- the store after file A is fully reindexed
  set sA : Store := applyOp (runOps (applyOp s (.clearFile pa))
    (recsA.map Op.insert ++ [Op.setHash pa (h ca)])) (.setHash pa (h ca)) with hsA
  have hgfb0 : getFileHash s pb = some (h cb) := by
    rw [hs, getFileHash]
    rw [List.find?_cons_of_neg _ (by simp [hne]),
      List.find?_cons_of_pos _ (by simp)]
    rfl
  have hgfb : getFileHash sA pb = some (h cb) := by
    rw [hsA, getFileHash_setHash_other pb pa _ (Ne.symm hne), runOps_append,
      runOps_singleton, getFileHash_setHash_other pb pa _ (Ne.symm hne),
      getFileHash_insert_run, getFileHash_clearFile, hgfb0]
  have hstep : incrFilesTr g h sigs s [(pa, ca), (pb, cb)]
      = (Op.clearFile pa :: (recsA.map Op.insert ++ [Op.setHash pa (h ca)])
          ++ [Op.setHash pa (h ca)], true, 1) := by
    rw [incrFilesTr_cons_changed g h sigs s pa ca [(pb, cb)] hcond ctxa hctx]
    rw [← hrecsA, ← hsA, incrFilesTr_cons_unchanged g h sigs sA pb cb [] hgfb]
    rfl
  have hdel : (indexedFiles s).filter
      (fun p => !(([(pa, ca), (pb, cb)].map (fun f => f.1)).contains p)) = [] := by
    rw [hs]
    show ([pa, pb].filter fun p => !([pa, pb].contains p)) = []
    rw [List.filter_cons, List.filter_cons]
    rw [show (!([pa, pb].contains pa)) = false by simp,
      show (!([pa, pb].contains pb)) = false by simp]
    simp
  have htrace : incrementalReindexTr g h sigs s [(pa, ca), (pb, cb)]
      = (Op.clearFile pa :: (recsA.map Op.insert ++ [Op.setHash pa (h ca)])
          ++ [Op.setHash pa (h ca)], true, 1) := by
    rw [incrementalReindexTr]
    simp only [hstep, hdel]
    simp [deleteFilesTr]
  have hres : (incrementalReindex g h sigs [(pa, ca), (pb, cb)] s).1
      = runOps s (Op.clearFile pa :: (recsA.map Op.insert ++ [Op.setHash pa (h ca)])
          ++ [Op.setHash pa (h ca)]) := by
    rw [incrementalReindex, htrace]
  refine ⟨?_, ?_, ?_⟩
  · rw [hres, List.cons_append, runOps_cons, runOps_append, runOps_append,
      runOps_singleton, entriesFor_setHash, runOps_singleton, entriesFor_setHash,
      entriesFor_insert_run_other pb pa (Ne.symm hne) recsA _
        (fun r hr => recsList_sources g pa ctxa _ _ r hr),
      entriesFor_clearFile_other pb pa hne]
  · rw [hres, List.cons_append, runOps_cons, runOps_append, runOps_append,
      runOps_singleton, getFileHash_setHash_other pb pa _ (Ne.symm hne),
      runOps_singleton, getFileHash_setHash_other pb pa _ (Ne.symm hne),
      getFileHash_insert_run, getFileHash_clearFile]
  · rw [hres, List.cons_append, runOps_cons, runOps_append, runOps_append,
      runOps_singleton, entriesFor_setHash, runOps_singleton, entriesFor_setHash,
      entriesFor_insert_run pa recsA _
        (fun r hr => recsList_sources g pa ctxa _ _ r hr),
      entriesFor_clearFile_self]
    simp

/-- One pre-existing record for "b.md", for the C5 witness. -/
def c5Entries : List Rec :=
  [{ entry_ref := str "bref", source_file := str "b.md", line_number := 1,
     raw_line := str "- w", entry_type := .note, status := none, signifier := none,
     content := str "w", entry_date := none, collection := none, month := none,
     migrated_to := none, migrated_from := none }]

/-- A store where "a.md" has a stale hash and "b.md" an up-to-date one. -/
def c5Store : Store :=
  ⟨c5Entries, [(str "a.md", str "Hold"), (str "b.md", 'H' :: str "- w")]⟩

/-- Witness for C5 at a concrete two-file store. -/
theorem incremental_locality_witness :
    entriesFor (str "b.md")
      (incrementalReindex (fun l => l) (fun l => 'H' :: l) parseDefaultSigs
        [(str "a.md", str "- z"), (str "b.md", str "- w")] c5Store).1
      = entriesFor (str "b.md") c5Store ∧
    getFileHash
      (incrementalReindex (fun l => l) (fun l => 'H' :: l) parseDefaultSigs
        [(str "a.md", str "- z"), (str "b.md", str "- w")] c5Store).1 (str "b.md")
      = getFileHash c5Store (str "b.md") := by
  have h := incremental_reindex_locality (fun l => l) (fun l => 'H' :: l)
    parseDefaultSigs c5Entries (str "a.md") (str "b.md") (str "- z") (str "- w")
    (str "Hold") { file_type := .collection, file_path := str "a.md" }
    (by decide) (by rfl) (by decide)
  exact ⟨h.1, h.2.1⟩

/-! Claim C3: a file's hash is written only after its inserts. -/

/-- Left-to-right checker: scanning the trace, no insert for a path may
occur after a set_file_hash for that same path. -/
def hashOrderOK (hashed : List Str) : List Op → Bool
  | [] => true
  | .insert r :: rest => !(hashed.contains r.source_file) && hashOrderOK hashed rest
  | .setHash p _ :: rest => hashOrderOK (p :: hashed) rest
  | .clearAll :: rest => hashOrderOK hashed rest
  | .clearFile _ :: rest => hashOrderOK hashed rest
  | .deleteHash _ :: rest => hashOrderOK hashed rest

/-- The set_file_hash paths of a trace, in order. -/
def opsHashPaths : List Op → List Str
  | [] => []
  | .setHash p _ :: rest => p :: opsHashPaths rest
  | .insert _ :: rest => opsHashPaths rest
  | .clearAll :: rest => opsHashPaths rest
  | .clearFile _ :: rest => opsHashPaths rest
  | .deleteHash _ :: rest => opsHashPaths rest

/-- The ordering property claim C3 states: wherever a trace writes a
file's hash, no insert for that file follows. -/
def HashWrittenLast (ops : List Op) : Prop :=
  ∀ (l₁ : List Op) (p hsh : Str) (l₂ : List Op),
    ops = l₁ ++ Op.setHash p hsh :: l₂ →
    ∀ r : Rec, Op.insert r ∈ l₂ → r.source_file ≠ p

theorem collectHashed_spec (hashed : List Str) :
    ∀ ops : List Op, hashOrderOK hashed ops = true →
      ∀ r : Rec, Op.insert r ∈ ops → hashed.contains r.source_file = false := by
  intro ops
  induction ops generalizing hashed with
  | nil => intro _ r hr; simp at hr
  | cons o os ih =>
    intro hok r hr
    rcases List.mem_cons.mp hr with h1 | h1
    · subst h1
      rw [hashOrderOK, Bool.and_eq_true] at hok
      simpa using hok.1
    · cases o with
      | insert r' =>
        rw [hashOrderOK, Bool.and_eq_true] at hok
        exact ih hashed hok.2 r h1
      | setHash q hh =>
        rw [hashOrderOK] at hok
        have := ih (q :: hashed) hok r h1
        rw [List.contains_cons] at this
        exact (Bool.or_eq_false_iff.mp this).2
      | clearAll => rw [hashOrderOK] at hok; exact ih hashed hok r h1
      | clearFile q => rw [hashOrderOK] at hok; exact ih hashed hok r h1
      | deleteHash q => rw [hashOrderOK] at hok; exact ih hashed hok r h1

theorem hashWrittenLast_aux (p hsh : Str) :
    ∀ (l₁ l₂ : List Op) (hashed : List Str),
      hashOrderOK hashed (l₁ ++ Op.setHash p hsh :: l₂) = true →
      ∀ r : Rec, Op.insert r ∈ l₂ → r.source_file ≠ p := by
  intro l₁
  induction l₁ with
  | nil =>
    intro l₂ hashed hok r hr
    rw [List.nil_append, hashOrderOK] at hok
    have := collectHashed_spec (p :: hashed) l₂ hok r hr
    rw [List.contains_cons] at this
    have h1 := (Bool.or_eq_false_iff.mp this).1
    intro heq
    rw [heq] at h1
    simp at h1
  | cons a t ih =>
    intro l₂ hashed hok r hr
    rw [List.cons_append] at hok
    cases a with
    | insert r' =>
      rw [hashOrderOK, Bool.and_eq_true] at hok
      exact ih l₂ hashed hok.2 r hr
    | setHash q hh => rw [hashOrderOK] at hok; exact ih l₂ (q :: hashed) hok r hr
    | clearAll => rw [hashOrderOK] at hok; exact ih l₂ hashed hok r hr
    | clearFile q => rw [hashOrderOK] at hok; exact ih l₂ hashed hok r hr
    | deleteHash q => rw [hashOrderOK] at hok; exact ih l₂ hashed hok r hr

theorem hashWrittenLast_of_hashOrderOK {ops : List Op}
    (h : hashOrderOK [] ops = true) : HashWrittenLast ops := by
  intro l₁ p hsh l₂ heq r hr
  rw [heq] at h
  exact hashWrittenLast_aux p hsh l₁ l₂ [] h r hr

theorem hashOrderOK_append (hashed : List Str) (a b : List Op) :
    hashOrderOK hashed (a ++ b)
      = (hashOrderOK hashed a
          && hashOrderOK ((opsHashPaths a).reverse ++ hashed) b) := by
  induction a generalizing hashed with
  | nil => simp [hashOrderOK, opsHashPaths]
  | cons o os ih =>
    rw [List.cons_append]
    cases o with
    | insert r =>
      rw [hashOrderOK, hashOrderOK, opsHashPaths, ih, Bool.and_assoc]
    | setHash q hh =>
      rw [hashOrderOK, hashOrderOK, opsHashPaths, ih]
      have : (q :: opsHashPaths os).reverse ++ hashed
          = (opsHashPaths os).reverse ++ (q :: hashed) := by simp
      rw [this]
    | clearAll => rw [hashOrderOK, hashOrderOK, opsHashPaths, ih]
    | clearFile p2 => rw [hashOrderOK, hashOrderOK, opsHashPaths, ih]
    | deleteHash p2 => rw [hashOrderOK, hashOrderOK, opsHashPaths, ih]

theorem hashOrderOK_map_insert (hashed : List Str) (rel : Str) (rs : List Rec)
    (hsrc : ∀ r ∈ rs, r.source_file = rel) (hrel : hashed.contains rel = false) :
    hashOrderOK hashed (rs.map Op.insert) = true := by
  induction rs with
  | nil => rfl
  | cons r t ih =>
    rw [List.map_cons, hashOrderOK, hsrc r (List.mem_cons_self r t), hrel]
    exact ih (fun x hx => hsrc x (List.mem_cons_of_mem r hx))

theorem opsHashPaths_map_insert (rs : List Rec) :
    opsHashPaths (rs.map Op.insert) = [] := by
  induction rs with
  | nil => rfl
  | cons r t ih => rw [List.map_cons, opsHashPaths, ih]

theorem hashOrderOK_indexFileTr (g h : Hasher) (sigs : SigCfg) (s : Store)
    (rel c : Str) (hashed : List Str) (hrel : hashed.contains rel = false) :
    hashOrderOK hashed (indexFileTr g h sigs s rel c).1 = true := by
  rw [indexFileTr]
  cases hctx : determineContextE rel with
  | error e => rfl
  | ok ctx =>
    show hashOrderOK hashed ((recsList g rel ctx s (parseFileContent sigs c)).map
      Op.insert ++ [Op.setHash rel (h c)]) = true
    rw [hashOrderOK_append,
      hashOrderOK_map_insert hashed rel _ (recsList_sources g rel ctx _ _) hrel]
    rfl

theorem opsHashPaths_indexFileTr (g h : Hasher) (sigs : SigCfg) (s : Store)
    (rel c : Str) :
    opsHashPaths (indexFileTr g h sigs s rel c).1 = []
      ∨ opsHashPaths (indexFileTr g h sigs s rel c).1 = [rel] := by
  rw [indexFileTr]
  cases hctx : determineContextE rel with
  | error e => exact Or.inl rfl
  | ok ctx =>
    right
    show opsHashPaths ((recsList g rel ctx s (parseFileContent sigs c)).map
      Op.insert ++ [Op.setHash rel (h c)]) = [rel]
    have : ∀ (a b : List Op), opsHashPaths (a ++ b)
        = opsHashPaths a ++ opsHashPaths b := by
      intro a
      induction a with
      | nil => intro b; rfl
      | cons o os iho =>
        intro b
        cases o with
        | setHash q hh => rw [List.cons_append, opsHashPaths, opsHashPaths, iho,
            List.cons_append]
        | insert r => rw [List.cons_append, opsHashPaths, opsHashPaths, iho]
        | clearAll => rw [List.cons_append, opsHashPaths, opsHashPaths, iho]
        | clearFile q => rw [List.cons_append, opsHashPaths, opsHashPaths, iho]
        | deleteHash q => rw [List.cons_append, opsHashPaths, opsHashPaths, iho]
    rw [this, opsHashPaths_map_insert]
    rfl

theorem hashOrderOK_deleteFilesTr (hashed : List Str) (ps : List Str) :
    hashOrderOK hashed (deleteFilesTr ps) = true := by
  induction ps generalizing hashed with
  | nil => rfl
  | cons p t ih => rw [deleteFilesTr, hashOrderOK, hashOrderOK]; exact ih hashed

theorem hashOrderOK_fullFilesTr (g h : Hasher) (sigs : SigCfg) :
    ∀ (files : List (Str × Str)) (s : Store) (hashed : List Str),
      (files.map (fun f => f.1)).Nodup →
      (∀ p ∈ files.map (fun f => f.1), p ∉ hashed) →
      hashOrderOK hashed (fullFilesTr g h sigs s files).1 = true := by
  intro files
  induction files with
  | nil => intro s hashed _ _; rfl
  | cons f fs ih =>
    intro s hashed hnd hdisj
    obtain ⟨p, c⟩ := f
    rw [List.map_cons, List.nodup_cons] at hnd
    have hp : p ∉ hashed := hdisj p (by simp)
    have hpc : hashed.contains p = false := by simpa using hp
    rw [fullFilesTr]
    cases ht : (indexFileTr g h sigs s p c).2 with
    | false =>
      simp only [ht, if_false]
      exact hashOrderOK_indexFileTr g h sigs s p c hashed hpc
    | true =>
      simp only [ht, if_true]
      show hashOrderOK hashed ((indexFileTr g h sigs s p c).1
        ++ (fullFilesTr g h sigs _ fs).1) = true
      rw [hashOrderOK_append,
        hashOrderOK_indexFileTr g h sigs s p c hashed hpc, Bool.true_and]
      rcases opsHashPaths_indexFileTr g h sigs s p c with hop | hop
      · rw [hop]
        exact ih _ hashed hnd.2 (fun q hq => hdisj q (List.mem_cons_of_mem _ hq))
      · rw [hop]
        show hashOrderOK (p :: hashed) _ = true
        refine ih _ (p :: hashed) hnd.2 ?_
        intro q hq
        rw [List.mem_cons]
        rintro (hq1 | hq1)
        · exact hnd.1 (hq1 ▸ hq)
        · exact hdisj q (List.mem_cons_of_mem _ hq) hq1

theorem hashOrderOK_incrFilesTr (g h : Hasher) (sigs : SigCfg) :
    ∀ (files : List (Str × Str)) (s : Store) (hashed : List Str),
      (files.map (fun f => f.1)).Nodup →
      (∀ p ∈ files.map (fun f => f.1), p ∉ hashed) →
      hashOrderOK hashed (incrFilesTr g h sigs s files).1 = true := by
  intro files
  induction files with
  | nil => intro s hashed _ _; rfl
  | cons f fs ih =>
    intro s hashed hnd hdisj
    obtain ⟨p, c⟩ := f
    rw [List.map_cons, List.nodup_cons] at hnd
    have hp : p ∉ hashed := hdisj p (by simp)
    have hpc : hashed.contains p = false := by simpa using hp
    rw [incrFilesTr]
    cases hch : decide (getFileHash s p ≠ some (h c)) with
    | false =>
      have hch' : ¬(getFileHash s p ≠ some (h c)) := by
        simpa using of_decide_eq_false hch
      rw [if_neg hch']
      exact ih s hashed hnd.2 (fun q hq => hdisj q (List.mem_cons_of_mem _ hq))
    | true =>
      rw [decide_eq_true_iff] at hch
      rw [if_pos hch]
      cases ht : (indexFileTr g h sigs (applyOp s (.clearFile p)) p c).2 with
      | false =>
        simp only [ht, if_false]
        show hashOrderOK hashed (Op.clearFile p
          :: (indexFileTr g h sigs (applyOp s (.clearFile p)) p c).1) = true
        rw [hashOrderOK]
        exact hashOrderOK_indexFileTr g h sigs _ p c hashed hpc
      | true =>
        simp only [ht, if_true]
        show hashOrderOK hashed (Op.clearFile p
          :: ((indexFileTr g h sigs (applyOp s (.clearFile p)) p c).1
            ++ Op.setHash p (h c) :: (incrFilesTr g h sigs _ fs).1)) = true
        rw [hashOrderOK, hashOrderOK_append,
          hashOrderOK_indexFileTr g h sigs _ p c hashed hpc, Bool.true_and]
        have hnext : ∀ pre : List Str, (∀ q ∈ pre, q = p) →
            hashOrderOK (pre ++ hashed) (Op.setHash p (h c)
              :: (incrFilesTr g h sigs
                (applyOp (runOps (applyOp s (.clearFile p))
                  (indexFileTr g h sigs (applyOp s (.clearFile p)) p c).1)
                  (.setHash p (h c))) fs).1) = true := by
          intro pre hpre
          rw [hashOrderOK]
          refine ih _ (p :: (pre ++ hashed)) hnd.2 ?_
          intro q hq
          rw [List.mem_cons, List.mem_append]
          rintro (hq1 | hq1 | hq1)
          · exact hnd.1 (hq1 ▸ hq)
          · exact hnd.1 ((hpre q hq1) ▸ hq)
          · exact hdisj q (List.mem_cons_of_mem _ hq) hq1
        rcases opsHashPaths_indexFileTr g h sigs (applyOp s (.clearFile p)) p c
          with hop | hop
        · rw [hop]
          exact hnext [] (by intro q hq; simp at hq)
        · rw [hop]
          refine hnext [p] ?_
          intro q hq
          simpa using hq

theorem hashOrderOK_fullReindexTr (g h : Hasher) (sigs : SigCfg) (s : Store)
    (files : List (Str × Str)) (hnd : (files.map (fun f => f.1)).Nodup) :
    hashOrderOK [] (fullReindexTr g h sigs s files).1 = true := by
  show hashOrderOK [] (Op.clearAll :: (fullFilesTr g h sigs _ files).1) = true
  rw [hashOrderOK]
  exact hashOrderOK_fullFilesTr g h sigs files _ [] hnd (by intro p _ hp; simp at hp)

theorem hashOrderOK_incrementalReindexTr (g h : Hasher) (sigs : SigCfg) (s : Store)
    (files : List (Str × Str)) (hnd : (files.map (fun f => f.1)).Nodup) :
    hashOrderOK [] (incrementalReindexTr g h sigs s files).1 = true := by
  have hbase := hashOrderOK_incrFilesTr g h sigs files s [] hnd
    (by intro p _ hp; simp at hp)
  rw [incrementalReindexTr]
  cases hok : (incrFilesTr g h sigs s files).2.1 with
  | false => simp only [hok, if_false]; exact hbase
  | true =>
    simp only [hok, if_true]
    show hashOrderOK [] ((incrFilesTr g h sigs s files).1 ++ deleteFilesTr _) = true
    rw [hashOrderOK_append, hbase, Bool.true_and]
    exact hashOrderOK_deleteFilesTr _ _

theorem hashOrderOK_reindexFileTr (g h : Hasher) (sigs : SigCfg) (s : Store)
    (p : Str) (disk : Option Str) :
    hashOrderOK [] (reindexFileTr g h sigs s p disk).1 = true := by
  cases disk with
  | none => rfl
  | some c =>
    rw [reindexFileTr]
    cases ht : (indexFileTr g h sigs (applyOp s (.clearFile p)) p c).2 with
    | false =>
      rw [if_neg (by simp [ht])]
      show hashOrderOK [] (Op.clearFile p
        :: (indexFileTr g h sigs (applyOp s (.clearFile p)) p c).1) = true
      rw [hashOrderOK]
      exact hashOrderOK_indexFileTr g h sigs _ p c [] rfl
    | true =>
      rw [if_pos (by simp [ht])]
      show hashOrderOK [] (Op.clearFile p
        :: ((indexFileTr g h sigs (applyOp s (.clearFile p)) p c).1
          ++ [Op.setHash p (h c)])) = true
      rw [hashOrderOK, hashOrderOK_append,
        hashOrderOK_indexFileTr g h sigs _ p c [] rfl, Bool.true_and]
      rfl

/-- Claim C3: in each of the three indexer operations, wherever the trace
writes a file's hash via set_file_hash, no insert_entry for that same file
follows; that is, a file's hash record is written only after all of that
file's entry records have been persisted.  For full and incremental
reindex the on-disk walk yields each path once (Nodup); reindex_file is
unconditional. -/
theorem hash_written_after_inserts (g h : Hasher) (sigs : SigCfg) (s : Store)
    (files : List (Str × Str)) (p : Str) (disk : Option Str)
    (hnd : (files.map (fun f => f.1)).Nodup) :
    HashWrittenLast (fullReindexTr g h sigs s files).1
      ∧ HashWrittenLast (incrementalReindexTr g h sigs s files).1
      ∧ HashWrittenLast (reindexFileTr g h sigs s p disk).1 :=
  ⟨hashWrittenLast_of_hashOrderOK (hashOrderOK_fullReindexTr g h sigs s files hnd),
   hashWrittenLast_of_hashOrderOK (hashOrderOK_incrementalReindexTr g h sigs s files hnd),
   hashWrittenLast_of_hashOrderOK (hashOrderOK_reindexFileTr g h sigs s p disk)⟩

def c3Files : List (Str × Str) :=
  [(str "a.md", str "- one"), (str "b.md", str "[ ] two")]

theorem hash_written_witness :
    ((c3Files.map (fun f => f.1)).Nodup
      ∧ HashWrittenLast (fullReindexTr id id defaultSignifiersCfg
          ⟨[], []⟩ c3Files).1)
    ∧ (fullReindexTr id id defaultSignifiersCfg ⟨[], []⟩ c3Files).1.length = 5 := by
  refine ⟨⟨by decide, ?_⟩, by rfl⟩
  exact (hash_written_after_inserts id id defaultSignifiersCfg ⟨[], []⟩ c3Files
    (str "a.md") none (by decide)).1

end Clibujo
